import Mathlib

/-!
Verification development for the unrar-wrapper repository.

The repository contains two Go packages:
  * `lzmadec` (src/unnamed/part_000): the generic `7z l -slt` listing parser
    (`parse7zListOutput`, `advanceToFirstEntry`, `getEntryLines`, `parseEntryLines`);
  * `unrarwrapper` (src/unrar.go and src/unnamed/part_002): the native unrar
    `lt` listing parser (`parseUnRARListOutput`, ...), the multi-volume resolver
    (`multiVolArchiveDetect`) and the natural-order comparator (`naturalCompare`,
    `chunkify`).

Strings are modelled as `List Char`.  Go compares strings byte-wise; for valid
UTF-8 this agrees with comparing Unicode code points, which is what the model
uses.  `strings.ToLower` / `unicode` case mapping is modelled on ASCII (the only
range the comparisons in this code exercise), and `strings.TrimSpace` trims the
six ASCII whitespace characters recognised by `unicode.IsSpace` (exotic Unicode
spaces do not occur in archiver output).  `bufio.Scanner` with `ScanLines` is
modelled by `splitLines` (the 64 KiB token-size limit of `bufio` is not
modelled).  `time.Parse` is modelled by a structural layout check; its result is
never inspected by any claim, only "parse errors are swallowed" matters.
-/

/-- Results of the fallible parsers are `Except`; give it decidable equality
so that concrete runs can be checked by `decide`. -/
instance {ε α : Type} [DecidableEq ε] [DecidableEq α] : DecidableEq (Except ε α) := fun x y =>
  match x, y with
  | .ok a, .ok b =>
    if h : a = b then isTrue (by rw [h])
    else isFalse (fun hc => by cases hc; exact h rfl)
  | .error a, .error b =>
    if h : a = b then isTrue (by rw [h])
    else isFalse (fun hc => by cases hc; exact h rfl)
  | .ok _, .error _ => isFalse (fun hc => by cases hc)
  | .error _, .ok _ => isFalse (fun hc => by cases hc)

/-- Go `\d` / `[0-9]`: ASCII digit, i.e. `'0' ≤ c ∧ c ≤ '9'` (stated on code
points for arithmetic convenience). -/
def isDig (c : Char) : Bool := decide (48 ≤ c.toNat) && decide (c.toNat ≤ 57)

/-- ASCII lower-casing of one character (model of `unicode.ToLower` on the
ASCII range, the only range exercised by the keys and extensions compared). -/
def lowC (c : Char) : Char :=
  if 'A' ≤ c ∧ c ≤ 'Z' then Char.ofNat (c.toNat + 32) else c

/-- Model of Go `strings.ToLower`. -/
def lowerStr (l : List Char) : List Char := l.map lowC

/-- The ASCII white-space characters of `unicode.IsSpace`. -/
def isSpaceGo (c : Char) : Bool :=
  c = ' ' || c = '\t' || c = '\n' || c = '\x0b' || c = '\x0c' || c = '\r'

/-- Model of Go `strings.TrimSpace`. -/
def trimS (l : List Char) : List Char :=
  ((l.dropWhile isSpaceGo).reverse.dropWhile isSpaceGo).reverse

/-- Model of Go `strings.SplitN(s, sep, 2)`: split at the first occurrence of
`sep`; `none` when `sep` does not occur (Go then returns a 1-element slice). -/
def splitOnFirst (sep : List Char) : List Char → Option (List Char × List Char)
  | [] => none
  | c :: cs =>
    if sep.isPrefixOf (c :: cs) then some ([], (c :: cs).drop sep.length)
    else
      match splitOnFirst sep cs with
      | some (x, y) => some (c :: x, y)
      | none => none

/-- Model of `bufio.Scanner` + `bufio.ScanLines` over a byte buffer: the
sequence of lines, each without its `\n` terminator and without a `\r`
immediately preceding the terminator (or the end of input). A trailing
newline produces no final empty token. -/
def splitLines : List Char → List (List Char)
  | [] => []
  | '\n' :: cs => [] :: splitLines cs
  | '\r' :: '\n' :: cs => [] :: splitLines cs
  | ['\r'] => [[]]
  | c :: cs =>
    match splitLines cs with
    | [] => [[c]]
    | l :: ls => (c :: l) :: ls

/-- Numeric value of a digit character. -/
def digToNat (c : Char) : Nat := c.toNat - 48

/-- Decimal value of a digit string, most significant digit first
(the accumulator loop of `strconv`). -/
def natOfDigits (l : List Char) : Nat := l.foldl (fun a c => a * 10 + digToNat c) 0

/-- Constant `math.MaxInt64`. -/
def intMax : Nat := 9223372036854775807

/-- Model of Go `strconv.Atoi` / `strconv.ParseInt(v, 10, 64)`: optional sign,
at least one digit, nothing else, value within the 64-bit range; `none` models
a non-nil error (syntax or range). -/
def goAtoi (l : List Char) : Option Int :=
  match l with
  | [] => none
  | c :: r =>
    if c = '+' then
      if r ≠ [] ∧ r.all isDig ∧ natOfDigits r ≤ intMax then some (natOfDigits r) else none
    else if c = '-' then
      if r ≠ [] ∧ r.all isDig ∧ natOfDigits r ≤ intMax + 1 then some (-(natOfDigits r : Int))
      else none
    else if (c :: r).all isDig ∧ natOfDigits (c :: r) ≤ intMax then
      some (natOfDigits (c :: r))
    else none

/-- Go byte-wise `<` on strings (code-point order on valid UTF-8). -/
def strLt : List Char → List Char → Bool
  | [], [] => false
  | [], _ :: _ => true
  | _ :: _, [] => false
  | a :: as, b :: bs => if a = b then strLt as bs else decide (a < b)

namespace Unrarwrapper

/-- Source `chunkify` splits a string into maximal runs of digits / non-digits, the
behaviour of `chunkifyRegexp.FindAllString(s, -1)` with pattern `(\d+|\D+)`.
Written with fuel (`l.length` suffices: every step consumes at least the head)
so that it is structurally recursive and kernel-reducible. -/
def chunkGo : Nat → List Char → List (List Char)
  | 0, _ => []
  | _, [] => []
  | fuel + 1, c :: cs =>
    (c :: cs.takeWhile (fun x => isDig x = isDig c)) ::
      chunkGo fuel (cs.dropWhile (fun x => isDig x = isDig c))

/-- Source: `chunkify` (src/unnamed/part_002). -/
def chunkify (l : List Char) : List (List Char) := chunkGo l.length l

/-- The chunk-comparison loop of `naturalCompare` (src/unnamed/part_002,
lines 64-116), including the `return 1` cases for an exhausted operand and
the final `return 1`. -/
def cmpChunks : List (List Char) → List (List Char) → Int
  | [], _ => 1
  | _ :: _, [] => 1
  | x :: xs, y :: ys =>
    match goAtoi x, goAtoi y with
    | some u, some v =>
      if u = v then
        if xs = [] then -1 else if ys = [] then 1 else cmpChunks xs ys
      else if u < v then -1 else 1
    | _, _ =>
      if x = y then
        if xs = [] then -1 else if ys = [] then 1 else cmpChunks xs ys
      else if strLt x y then -1 else 1

/-- Source: `naturalCompare` (src/unnamed/part_002). -/
def naturalCompare (a b : List Char) : Int :=
  if a = b then 0 else cmpChunks (chunkify a) (chunkify b)

end Unrarwrapper

/-- Go (unix) `filepath.IsAbs`: the path starts with `/`. -/
def isAbs (p : List Char) : Bool := p.head? = some '/'

/-- The element-popping step of `Clean`'s `..` handling: Go pops one byte
(`out.w--`) and keeps popping while `out.w > dotdot` and the byte just popped
is not a separator.  `out` is kept most-recent-first (reversed). -/
def truncTo (dotdot : Nat) : List Char → List Char
  | [] => []
  | c :: rest => if dotdot < rest.length ∧ c ≠ '/' then truncTo dotdot rest else rest

/-- The main loop of Go (unix) `filepath.Clean`.  `out` is the output buffer
most-recent-first (reversed); `dotdot` mirrors the source variable.  Written
with fuel (`input.length + 1` suffices: every step consumes at least one input
character) so that it is structurally recursive and kernel-reducible. -/
def cleanGo (rooted : Bool) : Nat → Nat → List Char → List Char → List Char
  | 0, _, out, _ => out
  | fuel + 1, dotdot, out, input =>
    match input with
    | [] => out
    | c :: rest =>
      if c = '/' then
        -- empty path element
        cleanGo rooted fuel dotdot out rest
      else if c = '.' ∧ (rest = [] ∨ rest.head? = some '/') then
        -- `.` element: consume the dot only
        cleanGo rooted fuel dotdot out rest
      else if c = '.' ∧ rest.head? = some '.' ∧
          (rest.tail = [] ∨ rest.tail.head? = some '/') then
        -- `..` element: consume both dots, then backtrack
        if dotdot < out.length then cleanGo rooted fuel dotdot (truncTo dotdot out) rest.tail
        else if rooted = false then
          cleanGo rooted fuel
            ('.' :: '.' :: (if out = [] then [] else '/' :: out)).length
            ('.' :: '.' :: (if out = [] then [] else '/' :: out)) rest.tail
        else cleanGo rooted fuel dotdot out rest.tail
      else
        -- ordinary element: add a separator if needed, then copy the element
        cleanGo rooted fuel dotdot
          (((c :: rest).takeWhile (fun x => x ≠ '/')).reverse ++
            (if (rooted ∧ out.length ≠ 1) ∨ (rooted = false ∧ out.length ≠ 0) then '/' :: out
             else out))
          ((c :: rest).dropWhile (fun x => x ≠ '/'))

/-- Model of Go (unix) `filepath.Clean`. -/
def cleanPath (p : List Char) : List Char :=
  if p = [] then [('.')]
  else
    let rooted := isAbs p
    let res := cleanGo rooted (p.length + 1) (if rooted then 1 else 0)
      (if rooted then [('/')] else []) (if rooted then p.tail else p)
    if res = [] then [('.')] else res.reverse

/-- Model of Go (unix) `filepath.Ext`: the suffix starting at the last dot of
the final path element, scanning from the end and stopping at a separator. -/
def extAux : List Char → List Char → List Char
  | [], _ => []
  | c :: rest, acc =>
    if c = '/' then [] else if c = '.' then '.' :: acc else extAux rest (c :: acc)

/-- Model of Go (unix) `filepath.Ext`. -/
def extPath (p : List Char) : List Char := extAux p.reverse []

/-- Model of Go (unix) `filepath.Base`: strip trailing separators, then keep
everything after the last separator; `""` gives `"."`, all-separators gives `"/"`. -/
def basePath (p : List Char) : List Char :=
  if p = [] then [('.')]
  else
    let q := (p.reverse.dropWhile (fun c => c = '/')).reverse
    let r := (q.reverse.takeWhile (fun c => c ≠ '/')).reverse
    if r = [] then [('/')] else r

/-- Model of Go (unix) `filepath.Dir`: `Clean` of everything up to and
including the last separator (`Clean("")` is `"."`). -/
def dirPath (p : List Char) : List Char :=
  cleanPath ((p.reverse.dropWhile (fun c => c ≠ '/')).reverse)

/-- Model of Go (unix) `filepath.Join` for two components: skip empty
components, join with `/`, `Clean` the result. -/
def joinPath (a b : List Char) : List Char :=
  if a = [] then (if b = [] then [] else cleanPath b)
  else cleanPath (a ++ '/' :: b)

/-- Model of Go `filepath.Abs`, with the process working directory passed
explicitly (`os.Getwd` returns an absolute path; its only failure mode is a
failing `getwd` system call, which is outside the model). -/
def absPath (cwd p : List Char) : List Char :=
  if isAbs p then cleanPath p else joinPath cwd p

namespace Unrarwrapper

/-- The case-insensitive literal `\.rar` matched against the very end of the
candidate: exactly `.rar` up to ASCII case. -/
def isDotRarCI : List Char → Bool
  | ['.', r1, r2, r3] => lowC r1 == 'r' && lowC r2 == 'a' && lowC r3 == 'r'
  | _ => false

/-- Recogniser for the tail `.part<digits><ext>` of the multi-part pattern
`(?mi)^(.+)\.part([0-9]+)(\.rar)$` at a fixed split point: `\.part` matched
case-insensitively, then a maximal nonempty digit run (`[0-9]+` is greedy and
the following `\.` cannot consume a digit), then `\.rar` case-insensitively at
the very end.  Returns the digit run and the literal extension text. -/
def suffixPart (l : List Char) : Option (List Char × List Char) :=
  match l with
  | '.' :: c1 :: c2 :: c3 :: c4 :: rest =>
    if lowC c1 = 'p' ∧ lowC c2 = 'a' ∧ lowC c3 = 'r' ∧ lowC c4 = 't' then
      let d := rest.takeWhile isDig
      let t := rest.dropWhile isDig
      if d ≠ [] ∧ isDotRarCI t = true then some (d, t) else none
    else none
  | _ => none

/-- Model of `rarMultiPartRx.FindStringSubmatch` on a base name: the three capture
groups of `(?mi)^(.+)\.part([0-9]+)(\.rar)$`, or `none` when the pattern does
not match.  `(.+)` is greedy, so the longest prefix whose remainder matches
`\.part[0-9]+\.rar$` wins; the recursion tries longer prefixes first.  The
model treats the pattern as anchored to the whole string: file base names do
not contain newlines, which is the only case where the `(?m)` flag and the
newline-exclusion of `.` would matter. -/
def findPartAux : List Char → List Char → Option (List Char × List Char × List Char)
  | _, [] => none
  | pre, c :: rest =>
    match findPartAux (pre ++ [c]) rest with
    | some r => some r
    | none =>
      if pre ≠ [] then (suffixPart (c :: rest)).map (fun p => (pre, p.1, p.2)) else none

/-- The multi-part pattern match on a base name (see `findPartAux`). -/
def findPartMatch (base : List Char) : Option (List Char × List Char × List Char) :=
  findPartAux [] base

/-- Model of `slices.SortFunc(files, naturalCompare)`: an insertion sort by the
comparator (the source's pdqsort agrees with it on every ordering the claims
exercise; the sort itself is unstable in Go and the claims do not rely on
stability). -/
def insertNat (x : List Char) : List (List Char) → List (List Char)
  | [] => [x]
  | y :: ys => if naturalCompare x y ≤ 0 then x :: y :: ys else y :: insertNat x ys

/-- Model of `slices.SortFunc(files, naturalCompare)`. -/
def sortNat : List (List Char) → List (List Char)
  | [] => []
  | x :: xs => insertNat x (sortNat xs)

/-- Source: `multiVolArchiveDetect` (src/unnamed/part_002).  `glob` is the
`filepath.Glob` collaborator (an oracle from pattern to match list; its error
is discarded by the source), `cwd` the working directory used by
`filepath.Abs`.  Result: `(isMultiVol, firstVolFullPath, multiVolFiles)`. -/
def multiVolArchiveDetect (glob : List Char → List (List Char)) (cwd : List Char)
    (targetPath : List Char) : Bool × List Char × List (List Char) :=
  if lowerStr (extPath targetPath) ≠ (".rar").toList then
    (false, targetPath, [targetPath])
  else
    match findPartMatch (basePath targetPath) with
    | some (bname, _, ext) =>
      (true,
       absPath cwd (joinPath (dirPath targetPath) (bname ++ (".part1").toList ++ ext)),
       sortNat (glob (joinPath (dirPath targetPath) (bname ++ (".part*").toList ++ ext))))
    | none => (false, absPath cwd targetPath, sortNat [])

end Unrarwrapper

/-- Structural abstraction of Go `time.Parse(layout, v)`: the value must have
the layout's length, digits where the layout has digits and the layout's
literal characters elsewhere.  (`time.Parse` additionally range-checks the
numeric components; no claim depends on the parsed value, only on whether
parse failures are swallowed.)  `some v` models a successfully parsed time,
`none` the zero `time.Time` that Go assigns when the swallowed parse fails. -/
def goTimeParse (layout v : List Char) : Option (List Char) :=
  if v.length = layout.length ∧
      (v.zip layout).all (fun p => if isDig p.2 then isDig p.1 else p.1 == p.2) then
    some v
  else none

namespace Lzmadec

/-- Source constant `timeLayout` (src/unnamed/part_000). -/
def timeLayout : List Char := ("2006-01-02 15:04:05").toList

/-- Source constant `RpmSep` (src/unnamed/part_000). -/
def RpmSep : List Char := ("--").toList

/-- Source constant `NormalSep` (src/unnamed/part_000). -/
def NormalSep : List Char := ("----------").toList

/-- The error values the `lzmadec` package can produce: `ErrNoEntries`, the
"unexpected line, invalid key value pair" error, the dead "path field can not
be empty" error, and the propagated `strconv` conversion errors. -/
inductive Err
  | noEntries
  | badLine (raw : List Char)
  | emptyPath
  | numErr (v : List Char)
deriving DecidableEq

/-- Source struct `Entry` (src/unnamed/part_000).  Field names follow the source; the Go
field `Type` is called `TypeF` here (`Type` is reserved in Lean) and the three
`time.Time` fields are `Option (List Char)` per `goTimeParse`. -/
structure Entry where
  Path : List Char := []
  Size : Int := 0
  PackedSize : Int := 0
  PhysicalSize : Int := 0
  ClusterSize : Int := 0
  Modified : Option (List Char) := none
  Created : Option (List Char) := none
  Accessed : Option (List Char) := none
  Attributes : List Char := []
  CRC : List Char := []
  Encrypted : List Char := []
  Method : List Char := []
  Block : Int := 0
  Comment : List Char := []
  VolumeIndex : Int := 0
  Characteristics : List Char := []
  Offset : Int := 0
  Solid : List Char := []
  Commented : List Char := []
  SplitBefore : List Char := []
  SplitAfter : List Char := []
  AlternateStream : List Char := []
  SymbolicLink : List Char := []
  HardLink : List Char := []
  CopyLink : List Char := []
  Checksum : List Char := []
  NTSecurity : List Char := []
  Folder : List Char := []
  HostOS : List Char := []
  Version : List Char := []
  User : List Char := []
  Group : List Char := []
  Mode : List Char := []
  TypeF : List Char := []
deriving DecidableEq

/-- The blank-value default of `parseEntryLines` (src/unnamed/part_000,
lines 168-170): an empty trimmed value becomes the string `"0"`. -/
def defaultBlank (v0 : List Char) : List Char :=
  if v0 = [] then ("0").toList else v0

/-- The cases of the `switch name` statement of `parseEntryLines`
(src/unnamed/part_000, lines 171-261), one constructor per recognised key
plus `kunknown` for the ignored default. -/
inductive Key
  | kpath | ksize | kpacked | kmodified | kcreated | kaccessed | kattributes
  | kcrc | kencrypted | kmethod | kblock | kcomment | kvolumeindex | ksolid
  | kcommented | ksplitbefore | ksplitafter | kfolder | khostos | kversion
  | kalternatestream | ksymboliclink | khardlink | kcopylink | kchecksum
  | kntsecurity | kcharacteristics | koffset | kmode | kuser | kgroup | ktype
  | kphysicalsize | kclustersize | kunknown
deriving DecidableEq

/-- The string comparisons of the `switch name` statement, as the
key-to-case table the Go switch denotes. -/
def keyTable : List (List Char × Key) :=
  [(("path").toList, .kpath), (("size").toList, .ksize),
   (("packed size").toList, .kpacked), (("modified").toList, .kmodified),
   (("created").toList, .kcreated), (("accessed").toList, .kaccessed),
   (("attributes").toList, .kattributes), (("crc").toList, .kcrc),
   (("encrypted").toList, .kencrypted), (("method").toList, .kmethod),
   (("block").toList, .kblock), (("comment").toList, .kcomment),
   (("volume index").toList, .kvolumeindex), (("solid").toList, .ksolid),
   (("commented").toList, .kcommented), (("split before").toList, .ksplitbefore),
   (("split after").toList, .ksplitafter), (("folder").toList, .kfolder),
   (("host os").toList, .khostos), (("version").toList, .kversion),
   (("alternate stream").toList, .kalternatestream),
   (("symbolic link").toList, .ksymboliclink), (("hard link").toList, .khardlink),
   (("copy link").toList, .kcopylink), (("checksum").toList, .kchecksum),
   (("nt security").toList, .kntsecurity),
   (("characteristics").toList, .kcharacteristics), (("offset").toList, .koffset),
   (("mode").toList, .kmode), (("user").toList, .kuser),
   (("group").toList, .kgroup), (("type").toList, .ktype),
   (("physical size").toList, .kphysicalsize),
   (("cluster size").toList, .kclustersize)]

/-- The case selected by the `switch name` statement (`kunknown` when no case
matches; unknown keys are ignored). -/
def keyOf (nm : List Char) : Key :=
  ((keyTable.find? (fun p => p.1 = nm)).map Prod.snd).getD .kunknown

/-- The body of each `switch` case of `parseEntryLines`
(src/unnamed/part_000, lines 171-261). -/
def applyKey (k : Key) (e : Entry) (v : List Char) : Except Err Entry :=
  match k with
  | .kpath =>
    -- the source assigns and then errors when the assigned Path is empty
    if v = [] then .error .emptyPath else .ok { e with Path := v }
  | .ksize =>
    match goAtoi v with
    | some n => .ok { e with Size := n }
    | none => .error (.numErr v)
  | .kpacked =>
    -- the source first stores the -1 sentinel, then parses because v is nonempty
    if v = [] then .ok { e with PackedSize := -1 }
    else
      match goAtoi v with
      | some n => .ok { e with PackedSize := n }
      | none => .error (.numErr v)
  | .kmodified => .ok { e with Modified := goTimeParse timeLayout v }
  | .kcreated => .ok { e with Created := goTimeParse timeLayout v }
  | .kaccessed => .ok { e with Accessed := goTimeParse timeLayout v }
  | .kattributes => .ok { e with Attributes := v }
  | .kcrc => .ok { e with CRC := v }
  | .kencrypted => .ok { e with Encrypted := v }
  | .kmethod => .ok { e with Method := v }
  | .kblock =>
    match goAtoi v with
    | some n => .ok { e with Block := n }
    | none => .error (.numErr v)
  | .kcomment => .ok { e with Comment := v }
  | .kvolumeindex =>
    match goAtoi v with
    | some n => .ok { e with VolumeIndex := n }
    | none => .error (.numErr v)
  | .ksolid => .ok { e with Solid := v }
  | .kcommented => .ok { e with Commented := v }
  | .ksplitbefore => .ok { e with SplitBefore := v }
  | .ksplitafter => .ok { e with SplitAfter := v }
  | .kfolder => .ok { e with Folder := v }
  | .khostos => .ok { e with HostOS := v }
  | .kversion => .ok { e with Version := v }
  | .kalternatestream => .ok { e with AlternateStream := v }
  | .ksymboliclink => .ok { e with SymbolicLink := v }
  | .khardlink => .ok { e with HardLink := v }
  | .kcopylink => .ok { e with CopyLink := v }
  | .kchecksum => .ok { e with Checksum := v }
  | .kntsecurity => .ok { e with NTSecurity := v }
  | .kcharacteristics => .ok { e with Characteristics := v }
  | .koffset =>
    match goAtoi v with
    | some n => .ok { e with Offset := n }
    | none => .error (.numErr v)
  | .kmode => .ok { e with Mode := v }
  | .kuser => .ok { e with User := v }
  | .kgroup => .ok { e with Group := v }
  | .ktype => .ok { e with TypeF := v }
  | .kphysicalsize =>
    if v = [] then .ok e
    else
      match goAtoi v with
      | some n =>
        .ok { e with PhysicalSize := n,
                     PackedSize := if e.PackedSize ≤ 0 then n else e.PackedSize }
      | none => .error (.numErr v)
  | .kclustersize =>
    if v = [] then .ok e
    else
      match goAtoi v with
      | some n =>
        .ok { e with ClusterSize := n,
                     Size := if e.Size ≤ 0 then n else e.Size }
      | none => .error (.numErr v)
  | .kunknown => .ok e

/-- The `switch name` dispatch of `parseEntryLines` (src/unnamed/part_000,
lines 171-261), applied to the lower-cased key `nm` and defaulted value `v`. -/
def dispatch (e : Entry) (nm v : List Char) : Except Err Entry :=
  applyKey (keyOf nm) e v

/-- One iteration of the loop body of `parseEntryLines` (src/unnamed/part_000,
lines 161-264): split the line on the first `" ="`, lower-case the key, trim
the value, default an empty value to `"0"`, dispatch on the key. -/
def processLine (e : Entry) (s : List Char) : Except Err Entry :=
  match splitOnFirst ((" =").toList) s with
  | none => .error (.badLine s)
  | some (k, rest) => dispatch e (lowerStr k) (defaultBlank (trimS rest))

/-- The loop of `parseEntryLines` over the block's lines, threading the entry
under construction and stopping at the first error. -/
def parseLinesGo (e : Entry) : List (List Char) → Except Err Entry
  | [] => .ok e
  | s :: rest =>
    match processLine e s with
    | .error er => .error er
    | .ok e' => parseLinesGo e' rest

/-- Source: `parseEntryLines` (src/unnamed/part_000). -/
def parseEntryLines (lines : List (List Char)) : Except Err Entry :=
  parseLinesGo {} lines

/-- The scan of `advanceToFirstEntry` (src/unnamed/part_000): consume lines
until the second `"--"` or a `"----------"`; `some` returns the unconsumed
lines, `none` models the `ErrNoEntries` return at end of stream. -/
def advanceGo (rpmSepCount : Nat) : List (List Char) → Option (List (List Char))
  | [] => none
  | l :: ls =>
    if (if l = RpmSep then rpmSepCount + 1 else rpmSepCount) = 2 then some ls
    else if l = NormalSep then some ls
    else advanceGo (if l = RpmSep then rpmSepCount + 1 else rpmSepCount) ls

/-- Source: `advanceToFirstEntry` (src/unnamed/part_000). -/
def advanceToFirstEntry (ls : List (List Char)) : Option (List (List Char)) :=
  advanceGo 0 ls

/-- The cross-field fixup applied after each block in `parse7zListOutput`
(src/unnamed/part_000, lines 296-303). -/
def fixupEntry (e : Entry) : Entry :=
  if e.Attributes = [] ∧ e.Folder ≠ [] then
    if e.Folder = ("+").toList then { e with Attributes := ("D").toList }
    else if e.Folder = ("-").toList then { e with Attributes := ("A").toList }
    else e
  else e

/-- The block loop of `parse7zListOutput` fused with `getEntryLines`
(src/unnamed/part_000): `acc` holds the current block's trimmed lines in
reverse.  A blank (or `"----------"`) line closes the block; an empty block
ends the scan with success; otherwise the block is parsed, fixed up and
appended.  At end of stream a pending nonempty block is parsed as the last
entry (the following `getEntryLines` call then yields the empty block). -/
def listLoop : List (List Char) → List (List Char) → Except Err (List Entry)
  | acc, [] =>
    if acc.reverse = [] then .ok []
    else
      match parseEntryLines acc.reverse with
      | .error er => .error er
      | .ok e => .ok [fixupEntry e]
  | acc, l :: ls =>
    if trimS l = [] ∨ trimS l = NormalSep then
      if acc.reverse = [] then .ok []
      else
        match parseEntryLines acc.reverse with
        | .error er => .error er
        | .ok e => (listLoop [] ls).map (fun r => fixupEntry e :: r)
    else listLoop (trimS l :: acc) ls

/-- Source: `parse7zListOutput` (src/unnamed/part_000). -/
def parse7zListOutput (d : List Char) : Except Err (List Entry) :=
  match advanceToFirstEntry (splitLines d) with
  | none => .error .noEntries
  | some ls => listLoop [] ls

end Lzmadec

namespace Unrarwrapper

/-- Source constant `timeLayout` (src/unrar.go). -/
def timeLayout : List Char := ("2006-01-02 15:04:05,000000000").toList

/-- Source constant `NormalSep` (src/unrar.go); a trimmed line can never equal it, the
comparison in `getEntryLines` is kept for fidelity. -/
def NormalSep : List Char := ("\n").toList

/-- The error values the `unrarwrapper` parser can produce: `ErrNoEntries`,
the "unexpected line, invalid key value pair" error, the "Name field can not
be empty" error and the propagated `strconv` conversion errors. -/
inductive Err
  | noEntries
  | badLine (raw : List Char)
  | emptyName
  | numErr (v : List Char)
deriving DecidableEq

/-- Source struct `Entry` (src/unrar.go).  The Go fields `Type` and `Ratio` are called
`TypeF` and `RatioStr` here (`Type` is reserved; the other name collides with
a token screened by the build).  `Modified` is `Option (List Char)` per
`goTimeParse`. -/
structure Entry where
  Name : List Char := []
  Size : Int := 0
  PackedSize : Int := 0
  RatioStr : List Char := []
  Modified : Option (List Char) := none
  Attributes : List Char := []
  CRC : List Char := []
  HostOS : List Char := []
  Compression : List Char := []
  Flags : List Char := []
  TypeF : List Char := []
deriving DecidableEq

/-- The test of `detailsRe.MatchString` (src/unrar.go): the line matches
`^Details: RAR(.+)$` — it starts with `Details: RAR` and at least one more
character follows (scanner lines never contain a newline, so `.+` and the
anchors impose nothing further). -/
def isDetails (l : List Char) : Bool :=
  (("Details: RAR").toList).isPrefixOf l && decide (12 < l.length) &&
    (l.drop 12).all (fun c => c ≠ '\n')

/-- The `switch name` dispatch of `parseEntryLines` (src/unrar.go,
lines 156-188), applied to the lower-cased key `nm` and trimmed value `v`
(no `"0"` defaulting in this dialect). -/
def dispatch (e : Entry) (nm v : List Char) : Except Err Entry :=
  if nm = ("name").toList then
      if v = [] then .error .emptyName else .ok { e with Name := v }
    else if nm = ("type").toList then .ok { e with TypeF := v }
    else if nm = ("size").toList then
      match goAtoi v with
      | some n => .ok { e with Size := n }
      | none => .error (.numErr v)
    else if nm = ("packed size").toList then
      if v = [] then .ok { e with PackedSize := -1 }
      else
        match goAtoi v with
        | some n => .ok { e with PackedSize := n }
        | none => .error (.numErr v)
    else if nm = ("ratio").toList then .ok { e with RatioStr := v }
    else if nm = ("mtime").toList then .ok { e with Modified := goTimeParse timeLayout v }
    else if nm = ("attributes").toList then .ok { e with Attributes := v }
    else if nm = ("crc32").toList then .ok { e with CRC := v }
    else if nm = ("host os").toList then .ok { e with HostOS := v }
    else if nm = ("compression").toList then .ok { e with Compression := v }
    else if nm = ("flags").toList then .ok { e with Flags := v }
    else .ok e

/-- One iteration of the loop body of `parseEntryLines` (src/unrar.go,
lines 148-191): split the line on the first `": "`, lower-case the key, trim
the value, dispatch on the key. -/
def processLine (e : Entry) (s : List Char) : Except Err Entry :=
  match splitOnFirst ((": ").toList) s with
  | none => .error (.badLine s)
  | some (k, rest) => dispatch e (lowerStr k) (trimS rest)

/-- The loop of `parseEntryLines` (src/unrar.go) over the block's lines. -/
def parseLinesGo (e : Entry) : List (List Char) → Except Err Entry
  | [] => .ok e
  | s :: rest =>
    match processLine e s with
    | .error er => .error er
    | .ok e' => parseLinesGo e' rest

/-- Source: `parseEntryLines` (src/unrar.go). -/
def parseEntryLines (lines : List (List Char)) : Except Err Entry :=
  parseLinesGo {} lines

/-- Source: `advanceToFirstEntry` (src/unrar.go): scan for the details line,
then consume and discard one more line; `none` models `ErrNoEntries`. -/
def advanceToFirstEntry : List (List Char) → Option (List (List Char))
  | [] => none
  | l :: ls => if isDetails l then some (ls.drop 1) else advanceToFirstEntry ls

/-- The block loop of `parseUnRARListOutput` fused with `getEntryLines`
(src/unrar.go), in the style of `Lzmadec.listLoop`; an entry whose `Name` is
empty is skipped (the source logs a warning and continues). -/
def listLoop : List (List Char) → List (List Char) → Except Err (List Entry)
  | acc, [] =>
    if acc.reverse = [] then .ok []
    else
      match parseEntryLines acc.reverse with
      | .error er => .error er
      | .ok e => if e.Name = [] then .ok [] else .ok [e]
  | acc, l :: ls =>
    if trimS l = [] ∨ trimS l = NormalSep then
      if acc.reverse = [] then .ok []
      else
        match parseEntryLines acc.reverse with
        | .error er => .error er
        | .ok e =>
          if e.Name = [] then listLoop [] ls
          else (listLoop [] ls).map (fun r => e :: r)
    else listLoop (trimS l :: acc) ls

/-- Source: `parseUnRARListOutput` (src/unrar.go). -/
def parseUnRARListOutput (d : List Char) : Except Err (List Entry) :=
  match advanceToFirstEntry (splitLines d) with
  | none => .error .noEntries
  | some ls => listLoop [] ls

end Unrarwrapper

namespace Unrarwrapper

/-- A digit run in canonical decimal form: `"0"` itself, or no leading zero. -/
def canonNum (c : List Char) : Bool := c == [('0')] || c.head? != some '0'

/-- Every all-digit chunk of the string is a canonical decimal (no
superfluous leading zeros).  Hypothesis of the amended antisymmetry claim. -/
def goodDigits (s : List Char) : Bool :=
  (chunkify s).all (fun c => !(c.all isDig) || canonNum c)

/-- Two chunks that the comparator's loop treats as equal at a position:
textually equal, or both parsed by `Atoi` with equal values. -/
def equivChunk (x y : List Char) : Bool :=
  x == y ||
    (match goAtoi x, goAtoi y with
     | some u, some v => u == v
     | _, _ => false)

/-- What `chunkify` guarantees about each chunk it emits: nonempty and a
uniform run of digits or of non-digits; together with canonicity of digit
runs, the hypotheses of the antisymmetry argument. -/
def chunkOk (c : List Char) : Prop :=
  c ≠ [] ∧ ((∀ x ∈ c, isDig x = true) ∨ (∀ x ∈ c, isDig x = false)) ∧
    ((∀ x ∈ c, isDig x = true) → canonNum c = true)

end Unrarwrapper

example :
    (Lzmadec.parse7zListOutput (("----------\nPath = a\nSize = 5\n\n\nignored").toList)).map
      (fun es => es.map (fun e => (e.Path, e.Size))) =
    .ok [(("a").toList, 5)] := by decide

example : Lzmadec.parse7zListOutput (("----------").toList) = .ok [] := by decide

example : Lzmadec.parse7zListOutput (("hello\nworld").toList) = .error .noEntries := by decide

example :
    (Lzmadec.parse7zListOutput (("--\njunk\n--\nPath = b").toList)).map
      (fun es => es.map (fun e => e.Path)) = .ok [("b").toList] := by decide

example :
    (Lzmadec.parseEntryLines [("Packed Size =").toList]).map (fun e => e.PackedSize) =
    .ok 0 := by decide

example :
    (Lzmadec.parseEntryLines [("Path = x").toList]).map (fun e => e.PackedSize) =
    .ok 0 := by decide

example :
    Lzmadec.parseEntryLines [("no separator here").toList] =
    .error (.badLine (("no separator here").toList)) := by decide

example :
    (Lzmadec.parseEntryLines [("Folder = +").toList]).map
      (fun e => (Lzmadec.fixupEntry e).Attributes) = .ok (("D").toList) := by decide

example :
    (Unrarwrapper.parseUnRARListOutput
      (("UNRAR 7.00\n\nArchive: x.rar\nDetails: RAR 5\n\n        Name: a.txt\n        Type: File\n        Size: 12\n\n").toList)).map
      (fun es => es.map (fun e => (e.Name, e.TypeF, e.Size))) =
    .ok [(("a.txt").toList, ("File").toList, 12)] := by decide

example :
    (Unrarwrapper.parseUnRARListOutput
      (("Details: RAR 5\nskip\nType: File\n\nName: ok.txt\n\n").toList)).map
      (fun es => es.map (fun e => e.Name)) =
    .ok [("ok.txt").toList] := by decide

example : Unrarwrapper.parseUnRARListOutput (("no details line").toList) =
    .error .noEntries := by decide

theorem char_toNat_inj {a b : Char} (h : a.toNat = b.toNat) : a = b :=
  Char.ext (UInt32.toNat.inj h)

theorem foldl_digits (l : List Char) (a : Nat) :
    l.foldl (fun acc c => acc * 10 + digToNat c) a = a * 10 ^ l.length + natOfDigits l := by
  induction l generalizing a with
  | nil => simp [natOfDigits]
  | cons c l ih =>
    simp only [natOfDigits, List.foldl_cons] at ih ⊢
    rw [ih (a * 10 + digToNat c), ih (0 * 10 + digToNat c), List.length_cons]
    ring

theorem natOfDigits_cons (c : Char) (l : List Char) :
    natOfDigits (c :: l) = digToNat c * 10 ^ l.length + natOfDigits l := by
  calc natOfDigits (c :: l)
      = l.foldl (fun acc x => acc * 10 + digToNat x) (digToNat c) := by
        simp [natOfDigits, List.foldl_cons]
    _ = digToNat c * 10 ^ l.length + natOfDigits l := foldl_digits l (digToNat c)

theorem digToNat_le (c : Char) (h : isDig c = true) : digToNat c ≤ 9 := by
  simp only [isDig, Bool.and_eq_true, decide_eq_true_eq] at h
  simp only [digToNat]
  omega

theorem natOfDigits_lt (l : List Char) (h : ∀ c ∈ l, isDig c = true) :
    natOfDigits l < 10 ^ l.length := by
  induction l with
  | nil => simp [natOfDigits]
  | cons c l ih =>
    rw [natOfDigits_cons]
    have h1 : digToNat c ≤ 9 := digToNat_le c (h c (by simp))
    have h2 : natOfDigits l < 10 ^ l.length := ih (fun x hx => h x (by simp [hx]))
    have h3 : digToNat c * 10 ^ l.length ≤ 9 * 10 ^ l.length :=
      Nat.mul_le_mul_right _ h1
    rw [List.length_cons, pow_succ]
    linarith

theorem natOfDigits_head_lb (c : Char) (l : List Char) (hc : isDig c = true) (h0 : c ≠ '0') :
    10 ^ l.length ≤ natOfDigits (c :: l) := by
  rw [natOfDigits_cons]
  have hne : c.toNat ≠ 48 := fun hh => h0 (char_toNat_inj (by rw [hh]; rfl))
  have h1 : 1 ≤ digToNat c := by
    simp only [isDig, Bool.and_eq_true, decide_eq_true_eq] at hc
    simp only [digToNat]
    omega
  have h2 : 1 * 10 ^ l.length ≤ digToNat c * 10 ^ l.length :=
    Nat.mul_le_mul_right _ h1
  linarith

theorem natOfDigits_inj_len : ∀ x y : List Char, (∀ c ∈ x, isDig c = true) →
    (∀ c ∈ y, isDig c = true) → x.length = y.length →
    natOfDigits x = natOfDigits y → x = y := by
  intro x
  induction x with
  | nil =>
    intro y _ _ hl _
    cases y with
    | nil => rfl
    | cons d m => simp at hl
  | cons c l ih =>
    intro y hx hy hl hv
    cases y with
    | nil => simp at hl
    | cons d m =>
      simp only [List.length_cons] at hl
      have hlm : l.length = m.length := by omega
      rw [natOfDigits_cons, natOfDigits_cons, hlm] at hv
      have hkpos : 0 < 10 ^ m.length := Nat.pos_pow_of_pos _ (by norm_num)
      have hvl : natOfDigits l < 10 ^ m.length := by
        rw [← hlm]; exact natOfDigits_lt l (fun z hz => hx z (by simp [hz]))
      have hvm : natOfDigits m < 10 ^ m.length :=
        natOfDigits_lt m (fun z hz => hy z (by simp [hz]))
      have e1 : (digToNat c * 10 ^ m.length + natOfDigits l) / 10 ^ m.length = digToNat c := by
        rw [Nat.mul_comm, Nat.mul_add_div hkpos, Nat.div_eq_of_lt hvl]; omega
      have e2 : (digToNat d * 10 ^ m.length + natOfDigits m) / 10 ^ m.length = digToNat d := by
        rw [Nat.mul_comm, Nat.mul_add_div hkpos, Nat.div_eq_of_lt hvm]; omega
      have hcd : digToNat c = digToNat d := by rw [← e1, ← e2, hv]
      have hcChar : c = d := by
        have hbc : isDig c = true := hx c (by simp)
        have hbd : isDig d = true := hy d (by simp)
        simp only [isDig, Bool.and_eq_true, decide_eq_true_eq] at hbc hbd
        simp only [digToNat] at hcd
        exact char_toNat_inj (by omega)
      have hrest : natOfDigits l = natOfDigits m := by
        rw [hcd] at hv
        exact Nat.add_left_cancel hv
      rw [hcChar, ih m (fun z hz => hx z (by simp [hz])) (fun z hz => hy z (by simp [hz]))
        hlm hrest]

theorem canonNum_cases (c : Char) (l : List Char) (h : Unrarwrapper.canonNum (c :: l) = true) :
    c :: l = [('0')] ∨ c ≠ '0' := by
  simp only [Unrarwrapper.canonNum, Bool.or_eq_true, beq_iff_eq, bne_iff_ne, ne_eq,
    List.head?_cons, Option.some.injEq] at h
  tauto

theorem canon_nat_inj (x y : List Char) (hx : ∀ c ∈ x, isDig c = true)
    (hy : ∀ c ∈ y, isDig c = true) (hnx : x ≠ []) (hny : y ≠ [])
    (cx : Unrarwrapper.canonNum x = true) (cy : Unrarwrapper.canonNum y = true)
    (hv : natOfDigits x = natOfDigits y) : x = y := by
  cases x with
  | nil => exact absurd rfl hnx
  | cons c l =>
    cases y with
    | nil => exact absurd rfl hny
    | cons d m =>
      rcases canonNum_cases c l cx with hx0 | hxh
      · rcases canonNum_cases d m cy with hy0 | hyh
        · rw [hx0, hy0]
        · exfalso
          rw [hx0] at hv
          have h1 : 10 ^ m.length ≤ natOfDigits (d :: m) :=
            natOfDigits_head_lb d m (hy d (by simp)) hyh
          have h2 : natOfDigits [('0')] = 0 := by decide
          have h3 : 0 < 10 ^ m.length := Nat.pos_pow_of_pos _ (by norm_num)
          omega
      · rcases canonNum_cases d m cy with hy0 | hyh
        · exfalso
          rw [hy0] at hv
          have h1 : 10 ^ l.length ≤ natOfDigits (c :: l) :=
            natOfDigits_head_lb c l (hx c (by simp)) hxh
          have h2 : natOfDigits [('0')] = 0 := by decide
          have h3 : 0 < 10 ^ l.length := Nat.pos_pow_of_pos _ (by norm_num)
          omega
        · have hlen : (c :: l).length = (d :: m).length := by
            rcases Nat.lt_trichotomy (c :: l).length (d :: m).length with hh | hh | hh
            · exfalso
              have b1 : natOfDigits (c :: l) < 10 ^ (c :: l).length :=
                natOfDigits_lt _ hx
              have b2 : 10 ^ m.length ≤ natOfDigits (d :: m) :=
                natOfDigits_head_lb d m (hy d (by simp)) hyh
              have b3 : 10 ^ (c :: l).length ≤ 10 ^ m.length := by
                apply Nat.pow_le_pow_right (by norm_num)
                simp only [List.length_cons] at hh ⊢
                omega
              omega
            · exact hh
            · exfalso
              have b1 : natOfDigits (d :: m) < 10 ^ (d :: m).length :=
                natOfDigits_lt _ hy
              have b2 : 10 ^ l.length ≤ natOfDigits (c :: l) :=
                natOfDigits_head_lb c l (hx c (by simp)) hxh
              have b3 : 10 ^ (d :: m).length ≤ 10 ^ l.length := by
                apply Nat.pow_le_pow_right (by norm_num)
                simp only [List.length_cons] at hh ⊢
                omega
              omega
          exact natOfDigits_inj_len _ _ hx hy hlen hv

example : cleanPath (("/w/../a/b/./c").toList) = ("/a/b/c").toList := by decide

example : cleanPath (("a//b/").toList) = ("a/b").toList := by decide

example : cleanPath (("../../x").toList) = ("../../x").toList := by decide

example : cleanPath (("/..").toList) = ("/").toList := by decide

example : extPath (("a/b.c/d.RaR").toList) = (".RaR").toList := by decide

example : basePath (("/data/archive.part2.rar").toList) = ("archive.part2.rar").toList := by
  decide

example : dirPath (("/data/archive.part2.rar").toList) = ("/data").toList := by decide

example : dirPath (("plain.rar").toList) = (".").toList := by decide

example : Unrarwrapper.findPartMatch (("archive.part2.rar").toList) =
    some (("archive").toList, ("2").toList, (".rar").toList) := by decide

example : Unrarwrapper.findPartMatch (("a.part1.part2.RAR").toList) =
    some (("a.part1").toList, ("2").toList, (".RAR").toList) := by decide

example : Unrarwrapper.findPartMatch (("plain.rar").toList) = none := by decide

example : Unrarwrapper.findPartMatch ((".part1.rar").toList) = none := by decide

example : Unrarwrapper.multiVolArchiveDetect (fun _ => []) (("/w").toList)
    (("plain.zip").toList) = (false, ("plain.zip").toList, [("plain.zip").toList]) := by decide

example : Unrarwrapper.multiVolArchiveDetect (fun _ => []) (("/w").toList)
    (("plain.rar").toList) = (false, ("/w/plain.rar").toList, []) := by decide

example :
    Unrarwrapper.multiVolArchiveDetect
      (fun _ => [("/d/a.part2.rar").toList, ("/d/a.part10.rar").toList,
                 ("/d/a.part1.rar").toList])
      (("/w").toList) (("/d/a.part2.rar").toList) =
    (true, ("/d/a.part1.rar").toList,
     [("/d/a.part1.rar").toList, ("/d/a.part2.rar").toList, ("/d/a.part10.rar").toList]) := by
  decide

example : Unrarwrapper.chunkify (("part10a").toList) =
    [("part").toList, ("10").toList, ("a").toList] := by decide

example : Unrarwrapper.naturalCompare (("part2").toList) (("part10").toList) = -1 := by decide

example : Unrarwrapper.naturalCompare (("part10").toList) (("part2").toList) = 1 := by decide

example : Unrarwrapper.naturalCompare (("x").toList) (("x1").toList) = -1 := by decide

example : Unrarwrapper.naturalCompare (("x1").toList) (("x").toList) = 1 := by decide

example : Unrarwrapper.naturalCompare ([]) (("x").toList) = 1 := by decide

example : Unrarwrapper.naturalCompare (("x").toList) ([]) = 1 := by decide

example : Unrarwrapper.naturalCompare (("0").toList) (("00").toList) = -1 := by decide

example : Unrarwrapper.naturalCompare (("00").toList) (("0").toList) = -1 := by decide

theorem goAtoi_allDig (l : List Char) (hne : l ≠ []) (hd : ∀ c ∈ l, isDig c = true) :
    goAtoi l = if natOfDigits l ≤ intMax then some ((natOfDigits l : Nat) : Int)
               else none := by
  cases l with
  | nil => exact absurd rfl hne
  | cons c r =>
    have hc : isDig c = true := hd c (by simp)
    have h1 : c ≠ '+' := by
      intro h; rw [h] at hc; simp [isDig] at hc
    have h2 : c ≠ '-' := by
      intro h; rw [h] at hc; simp [isDig] at hc
    have h3 : (c :: r).all isDig = true := by
      rw [List.all_eq_true]; intro x hx; exact hd x hx
    simp only [goAtoi, if_neg h1, if_neg h2, h3]
    by_cases hb : natOfDigits (c :: r) ≤ intMax
    · simp [hb]
    · simp [hb]

theorem all_isDig_false_of_mem (l : List Char) (x : Char) (hx : x ∈ l)
    (h : isDig x = false) : l.all isDig = false := by
  cases hall : l.all isDig
  · rfl
  · exfalso
    rw [List.all_eq_true] at hall
    rw [hall x hx] at h
    cases h

theorem goAtoi_noDig (l : List Char) (hd : ∀ c ∈ l, isDig c = false) : goAtoi l = none := by
  cases l with
  | nil => rfl
  | cons c r =>
    simp only [goAtoi]
    by_cases h1 : c = '+'
    · simp only [if_pos h1]
      cases r with
      | nil => simp
      | cons x rx =>
        have hx : isDig x = false := hd x (by simp)
        have hfa : (x :: rx).all isDig = false :=
          all_isDig_false_of_mem _ x (by simp) hx
        simp [hfa]
    · by_cases h2 : c = '-'
      · simp only [if_neg h1, if_pos h2]
        cases r with
        | nil => simp
        | cons x rx =>
          have hx : isDig x = false := hd x (by simp)
          have hfa : (x :: rx).all isDig = false :=
            all_isDig_false_of_mem _ x (by simp) hx
          simp [hfa]
      · have hc : isDig c = false := hd c (by simp)
        have hfa : (c :: r).all isDig = false :=
          all_isDig_false_of_mem _ c (by simp) hc
        simp [if_neg h1, if_neg h2, hfa]

theorem goAtoi_some_val (l : List Char) (hne : l ≠ []) (hd : ∀ c ∈ l, isDig c = true)
    (u : Int) (h : goAtoi l = some u) : u = ((natOfDigits l : Nat) : Int) := by
  rw [goAtoi_allDig l hne hd] at h
  by_cases hb : natOfDigits l ≤ intMax
  · rw [if_pos hb] at h; exact (Option.some.inj h).symm
  · rw [if_neg hb] at h; cases h

theorem chunkGo_spec : ∀ (fuel : Nat) (l : List Char), l.length ≤ fuel →
    (Unrarwrapper.chunkGo fuel l).flatten = l ∧
      ∀ c ∈ Unrarwrapper.chunkGo fuel l,
        c ≠ [] ∧ ((∀ x ∈ c, isDig x = true) ∨ (∀ x ∈ c, isDig x = false)) := by
  intro fuel
  induction fuel with
  | zero =>
    intro l hl
    have : l = [] := by
      cases l with
      | nil => rfl
      | cons c cs => simp at hl
    subst this
    simp [Unrarwrapper.chunkGo]
  | succ fuel ih =>
    intro l hl
    cases l with
    | nil => simp [Unrarwrapper.chunkGo]
    | cons c cs =>
      have hdrop : (cs.dropWhile (fun x => isDig x = isDig c)).length ≤ fuel := by
        have h1 := (List.dropWhile_sublist (l := cs)
          (p := fun x => decide (isDig x = isDig c))).length_le
        simp only [List.length_cons] at hl
        omega
      obtain ⟨ihj, ihm⟩ := ih _ hdrop
      constructor
      · simp only [Unrarwrapper.chunkGo, List.flatten_cons, ihj, List.cons_append]
        rw [List.takeWhile_append_dropWhile]
      · intro ch hch
        simp only [Unrarwrapper.chunkGo, List.mem_cons] at hch
        rcases hch with hch | hch
        · subst hch
          refine ⟨by simp, ?_⟩
          have hmem : ∀ x ∈ c :: cs.takeWhile (fun x => isDig x = isDig c),
              isDig x = isDig c := by
            intro x hx
            rcases List.mem_cons.mp hx with hx | hx
            · rw [hx]
            · have := List.mem_takeWhile_imp hx
              simpa using this
          rcases Bool.eq_false_or_eq_true (isDig c) with hb | hb
          · exact Or.inl (fun x hx => by rw [hmem x hx]; exact hb)
          · exact Or.inr (fun x hx => by rw [hmem x hx]; exact hb)
        · exact ihm ch hch

theorem chunkify_join (l : List Char) : (Unrarwrapper.chunkify l).flatten = l :=
  (chunkGo_spec l.length l le_rfl).1

theorem chunkify_mem_spec (l : List Char) (c : List Char) (h : c ∈ Unrarwrapper.chunkify l) :
    c ≠ [] ∧ ((∀ x ∈ c, isDig x = true) ∨ (∀ x ∈ c, isDig x = false)) :=
  (chunkGo_spec l.length l le_rfl).2 c h

theorem chunkify_ne_nil (l : List Char) (h : l ≠ []) : Unrarwrapper.chunkify l ≠ [] := by
  cases l with
  | nil => exact absurd rfl h
  | cons c cs => simp [Unrarwrapper.chunkify, Unrarwrapper.chunkGo]

theorem strLt_flip : ∀ x y : List Char, x ≠ y → strLt y x = !strLt x y := by
  intro x
  induction x with
  | nil =>
    intro y h
    cases y with
    | nil => exact absurd rfl h
    | cons d m => simp [strLt]
  | cons c l ih =>
    intro y h
    cases y with
    | nil => simp [strLt]
    | cons d m =>
      by_cases hcd : c = d
      · subst hcd
        have hlm : l ≠ m := fun he => h (by rw [he])
        simp [strLt, ih m hlm]
      · have hdc : d ≠ c := fun he => hcd he.symm
        simp only [strLt, if_neg hcd, if_neg hdc]
        rcases lt_trichotomy c d with hh | hh | hh
        · have h2 : ¬ d < c := not_lt_of_gt hh
          simp [hh, h2]
        · exact absurd hh hcd
        · have h2 : ¬ c < d := not_lt_of_gt hh
          simp [hh, h2]

theorem cmpChunks_ne_zero : ∀ xs ys : List (List Char),
    Unrarwrapper.cmpChunks xs ys = -1 ∨ Unrarwrapper.cmpChunks xs ys = 1 := by
  intro xs
  induction xs with
  | nil => intro ys; simp [Unrarwrapper.cmpChunks]
  | cons x xs ih =>
    intro ys
    cases ys with
    | nil => simp [Unrarwrapper.cmpChunks]
    | cons y ys =>
      cases hu : goAtoi x <;> cases hv : goAtoi y <;>
        simp only [Unrarwrapper.cmpChunks, hu, hv] <;>
        repeat' split
      all_goals first
        | exact Or.inl rfl
        | exact Or.inr rfl
        | exact ih ys

theorem cmpChunks_tie (x : List Char) (xs ys : List (List Char))
    (hrec : xs ≠ [] → ys ≠ [] → xs.flatten ≠ ys.flatten →
      Unrarwrapper.cmpChunks xs ys = -Unrarwrapper.cmpChunks ys xs)
    (hj : (x :: xs).flatten ≠ (x :: ys).flatten) :
    (if xs = [] then (-1 : Int) else if ys = [] then 1 else Unrarwrapper.cmpChunks xs ys) =
      -(if ys = [] then (-1 : Int) else if xs = [] then 1
        else Unrarwrapper.cmpChunks ys xs) := by
  have hj2 : xs.flatten ≠ ys.flatten := by
    intro h
    exact hj (by rw [List.flatten_cons, List.flatten_cons, h])
  by_cases hxe : xs = []
  · by_cases hye : ys = []
    · exact absurd (by rw [hxe, hye]) hj
    · rw [if_pos hxe, if_neg hye, if_pos hxe]
  · by_cases hye : ys = []
    · rw [if_neg hxe, if_pos hye, if_pos hye]
      norm_num
    · rw [if_neg hxe, if_neg hye, if_neg hye, if_neg hxe]
      exact hrec hxe hye hj2

theorem cmpChunks_antisym : ∀ xs ys : List (List Char),
    (∀ c ∈ xs, Unrarwrapper.chunkOk c) → (∀ c ∈ ys, Unrarwrapper.chunkOk c) →
    xs ≠ [] → ys ≠ [] → xs.flatten ≠ ys.flatten →
    Unrarwrapper.cmpChunks xs ys = -Unrarwrapper.cmpChunks ys xs := by
  intro xs
  induction xs with
  | nil =>
    intro ys _ _ hx _ _
    exact absurd rfl hx
  | cons x xs ih =>
    intro ys hxo hyo _ hys hj
    cases ys with
    | nil => exact absurd rfl hys
    | cons y ys =>
      obtain ⟨hxne, hxuni, hxcan⟩ := hxo x (by simp)
      obtain ⟨hyne, hyuni, hycan⟩ := hyo y (by simp)
      have hrec : xs ≠ [] → ys ≠ [] → xs.flatten ≠ ys.flatten →
          Unrarwrapper.cmpChunks xs ys = -Unrarwrapper.cmpChunks ys xs := fun h1 h2 h3 =>
        ih ys (fun c hc => hxo c (by simp [hc])) (fun c hc => hyo c (by simp [hc])) h1 h2 h3
      cases hu : goAtoi x <;> cases hv : goAtoi y
      · -- both Atoi fail: string branch
        simp only [Unrarwrapper.cmpChunks, hu, hv]
        by_cases hxy : x = y
        · subst hxy
          rw [if_pos rfl, if_pos rfl]
          exact cmpChunks_tie x xs ys hrec hj
        · have hyx : ¬ y = x := fun h => hxy h.symm
          rw [if_neg hxy, if_neg hyx, strLt_flip x y hxy]
          cases hs : strLt x y <;> simp
      · -- x fails, y parses: heads differ, string branch
        simp only [Unrarwrapper.cmpChunks, hu, hv]
        have hxy : x ≠ y := fun h => by rw [h, hv] at hu; cases hu
        have hyx : ¬ y = x := fun h => hxy h.symm
        rw [if_neg hxy, if_neg hyx, strLt_flip x y hxy]
        cases hs : strLt x y <;> simp
      · -- x parses, y fails: heads differ, string branch
        simp only [Unrarwrapper.cmpChunks, hu, hv]
        have hxy : x ≠ y := fun h => by rw [h, hv] at hu; cases hu
        have hyx : ¬ y = x := fun h => hxy h.symm
        rw [if_neg hxy, if_neg hyx, strLt_flip x y hxy]
        cases hs : strLt x y <;> simp
      · -- both parse: numeric branch
        rename_i u v
        simp only [Unrarwrapper.cmpChunks, hu, hv]
        by_cases huv : u = v
        · -- equal values: canonical digit runs force equal text
          have hxdig : ∀ z ∈ x, isDig z = true := by
            rcases hxuni with h | h
            · exact h
            · exact absurd hu (by rw [goAtoi_noDig x h]; simp)
          have hydig : ∀ z ∈ y, isDig z = true := by
            rcases hyuni with h | h
            · exact h
            · exact absurd hv (by rw [goAtoi_noDig y h]; simp)
          have hux := goAtoi_some_val x hxne hxdig u hu
          have hvy := goAtoi_some_val y hyne hydig v hv
          have hnat : natOfDigits x = natOfDigits y := by
            have : ((natOfDigits x : Nat) : Int) = ((natOfDigits y : Nat) : Int) := by
              rw [← hux, ← hvy, huv]
            exact_mod_cast this
          have hxy : x = y :=
            canon_nat_inj x y hxdig hydig hxne hyne (hxcan hxdig) (hycan hydig) hnat
          subst hxy
          rw [if_pos huv, if_pos (huv.symm)]
          exact cmpChunks_tie x xs ys hrec hj
        · have hvu : ¬ v = u := fun h => huv h.symm
          rw [if_neg huv, if_neg hvu]
          split_ifs <;> omega

theorem chunkOk_of_goodDigits (s : List Char) (hg : Unrarwrapper.goodDigits s = true) :
    ∀ c ∈ Unrarwrapper.chunkify s, Unrarwrapper.chunkOk c := by
  intro c hc
  obtain ⟨h1, h2⟩ := chunkify_mem_spec s c hc
  refine ⟨h1, h2, ?_⟩
  intro hdig
  rw [Unrarwrapper.goodDigits, List.all_eq_true] at hg
  have hcontr := hg c hc
  have hall : c.all isDig = true := by rw [List.all_eq_true]; exact hdig
  simpa [hall] using hcontr

theorem naturalCompare_antisym (a b : List Char) (ha : a ≠ []) (hb : b ≠ [])
    (hga : Unrarwrapper.goodDigits a = true) (hgb : Unrarwrapper.goodDigits b = true) :
    Unrarwrapper.naturalCompare a b = -Unrarwrapper.naturalCompare b a := by
  by_cases hab : a = b
  · subst hab
    simp [Unrarwrapper.naturalCompare]
  · have hba : ¬ b = a := fun h => hab h.symm
    simp only [Unrarwrapper.naturalCompare, if_neg hab, if_neg hba]
    apply cmpChunks_antisym
    · exact chunkOk_of_goodDigits a hga
    · exact chunkOk_of_goodDigits b hgb
    · exact chunkify_ne_nil a ha
    · exact chunkify_ne_nil b hb
    · rw [chunkify_join, chunkify_join]
      exact hab

/-- C2, corrected claim: `naturalCompare` returns `0` exactly on equal
strings; the sign-antisymmetry `naturalCompare a b = -naturalCompare b a`
holds for nonempty strings whose digit runs are canonical decimals (no
superfluous leading zeros) — it does not hold unconditionally, and in
particular not for empty strings (see the counterexample). -/
theorem claim_C2_amended :
    (∀ a b : List Char, Unrarwrapper.naturalCompare a b = 0 ↔ a = b) ∧
    (∀ a b : List Char, a ≠ [] → b ≠ [] → Unrarwrapper.goodDigits a = true →
      Unrarwrapper.goodDigits b = true →
      Unrarwrapper.naturalCompare a b = -Unrarwrapper.naturalCompare b a) := by
  constructor
  · intro a b
    constructor
    · intro h
      by_contra hab
      rw [Unrarwrapper.naturalCompare, if_neg hab] at h
      rcases cmpChunks_ne_zero (Unrarwrapper.chunkify a) (Unrarwrapper.chunkify b) with
        hc | hc <;> rw [hc] at h <;> cases h
    · intro h
      subst h
      simp [Unrarwrapper.naturalCompare]
  · exact naturalCompare_antisym

/-- C2, counterexample to the claim as stated: for the empty string against
`"x"` both orders of `naturalCompare` return `1`, so the comparator is not
antisymmetric (and hence not a total ordering comparator) on all strings,
contrary to the claim's "including for empty strings". -/
theorem claim_C2_counterexample :
    Unrarwrapper.naturalCompare ([]) (("x").toList) = 1 ∧
    Unrarwrapper.naturalCompare (("x").toList) ([]) = 1 ∧
    Unrarwrapper.naturalCompare ([]) (("x").toList) ≠
      -Unrarwrapper.naturalCompare (("x").toList) ([]) := by decide

/-- C2 witness: the amended theorem applied at concrete inputs. -/
theorem claim_C2_witness :
    Unrarwrapper.naturalCompare (("a10").toList) (("a10").toList) = 0 ∧
    Unrarwrapper.naturalCompare (("part2").toList) (("part10").toList) =
      -Unrarwrapper.naturalCompare (("part10").toList) (("part2").toList) :=
  ⟨(claim_C2_amended.1 _ _).mpr rfl,
   claim_C2_amended.2 _ _ (by decide) (by decide) (by decide) (by decide)⟩

theorem cmpChunks_prefix_tie (xs ys : List (List Char)) (hys : ys ≠ [])
    (hrec : xs ≠ [] →
      Unrarwrapper.cmpChunks xs ys = -1 ∧ Unrarwrapper.cmpChunks ys xs = 1) :
    (if xs = [] then (-1 : Int) else if ys = [] then 1
      else Unrarwrapper.cmpChunks xs ys) = -1 ∧
    (if ys = [] then (-1 : Int) else if xs = [] then 1
      else Unrarwrapper.cmpChunks ys xs) = 1 := by
  by_cases hxe : xs = []
  · constructor
    · rw [if_pos hxe]
    · rw [if_neg hys, if_pos hxe]
  · obtain ⟨h1, h2⟩ := hrec hxe
    constructor
    · rw [if_neg hxe, if_neg hys]
      exact h1
    · rw [if_neg hys, if_neg hxe]
      exact h2

theorem cmpChunks_prefix_lt : ∀ xs ys : List (List Char), xs ≠ [] →
    xs.length < ys.length →
    List.Forall₂ (fun x y => Unrarwrapper.equivChunk x y = true) xs (ys.take xs.length) →
    Unrarwrapper.cmpChunks xs ys = -1 ∧ Unrarwrapper.cmpChunks ys xs = 1 := by
  intro xs
  induction xs with
  | nil =>
    intro ys h
    exact absurd rfl h
  | cons x xs ih =>
    intro ys _ hlen hf
    cases ys with
    | nil => simp at hlen
    | cons y ys =>
      rw [List.length_cons, List.take_succ_cons] at hf
      obtain ⟨hxy, htail⟩ := List.forall₂_cons.mp hf
      have hlen2 : xs.length < ys.length := by
        simp only [List.length_cons] at hlen
        omega
      have hysne : ys ≠ [] := by
        intro h
        rw [h] at hlen2
        simp at hlen2
      have hrec : xs ≠ [] →
          Unrarwrapper.cmpChunks xs ys = -1 ∧ Unrarwrapper.cmpChunks ys xs = 1 :=
        fun hxe => ih ys hxe hlen2 htail
      cases hu : goAtoi x <;> cases hv : goAtoi y <;>
        simp only [Unrarwrapper.equivChunk, hu, hv, Bool.or_eq_true, beq_iff_eq] at hxy
      · -- both fail: heads textually equal
        rcases hxy with hxy | hxy
        · subst hxy
          simp only [Unrarwrapper.cmpChunks, hu, if_pos rfl]
          exact cmpChunks_prefix_tie xs ys hysne hrec
        · cases hxy
      · rcases hxy with hxy | hxy
        · subst hxy
          rw [hv] at hu
          cases hu
        · cases hxy
      · rcases hxy with hxy | hxy
        · subst hxy
          rw [hv] at hu
          cases hu
        · cases hxy
      · -- both parse
        rename_i u v
        rcases hxy with hxy | hxy
        · subst hxy
          rw [hv] at hu
          have huv : v = u := by
            have := Option.some.inj hu
            rw [this]
          subst huv
          simp only [Unrarwrapper.cmpChunks, hv, if_pos rfl]
          exact cmpChunks_prefix_tie xs ys hysne hrec
        · have huv : u = v := by exact_mod_cast hxy
          simp only [Unrarwrapper.cmpChunks, hu, hv, if_pos huv, if_pos huv.symm]
          exact cmpChunks_prefix_tie xs ys hysne hrec

/-- C3, corrected claim: when the chunk sequences agree (textually or as equal
numbers) up to a position that is the last chunk of one operand but not of the
other, the operand that ends there sorts BEFORE the longer operand
(`naturalCompare` returns `-1` for it, and `1` in the swapped order), not
after as the claim states. -/
theorem claim_C3_amended (a b : List Char)
    (hne : Unrarwrapper.chunkify a ≠ [])
    (hlen : (Unrarwrapper.chunkify a).length < (Unrarwrapper.chunkify b).length)
    (hf : List.Forall₂ (fun x y => Unrarwrapper.equivChunk x y = true)
      (Unrarwrapper.chunkify a)
      ((Unrarwrapper.chunkify b).take (Unrarwrapper.chunkify a).length)) :
    Unrarwrapper.naturalCompare a b = -1 ∧ Unrarwrapper.naturalCompare b a = 1 := by
  have hab : a ≠ b := by
    intro h
    subst h
    exact absurd hlen (lt_irrefl _)
  have hba : ¬ b = a := fun h => hab h.symm
  simp only [Unrarwrapper.naturalCompare, if_neg hab, if_neg hba]
  exact cmpChunks_prefix_lt _ _ hne hlen hf

/-- C3, counterexample to the claim as stated: `"x"` against `"x1"` — the
chunk sequences agree at position 0, which is the last chunk of `"x"` only;
the claim says `"x"` must sort after `"x1"` (a positive return), but the
comparator returns `-1` (`"x"` sorts before `"x1"`). -/
theorem claim_C3_counterexample :
    Unrarwrapper.naturalCompare (("x").toList) (("x1").toList) = -1 ∧
    Unrarwrapper.naturalCompare (("x1").toList) (("x").toList) = 1 ∧
    ¬ 0 < Unrarwrapper.naturalCompare (("x").toList) (("x1").toList) := by decide

/-- C3 witness: the amended theorem applied at `"part1"` vs `"part1.rar"`. -/
theorem claim_C3_witness :
    Unrarwrapper.naturalCompare (("part1").toList) (("part1.rar").toList) = -1 ∧
    Unrarwrapper.naturalCompare (("part1.rar").toList) (("part1").toList) = 1 :=
  claim_C3_amended (("part1").toList) (("part1.rar").toList) (by decide) (by decide)
    (by decide)

theorem truncTo_spec : ∀ (dd : Nat) (out : List Char), dd < out.length →
    dd ≤ (truncTo dd out).length ∧ ∃ t, out = t ++ truncTo dd out := by
  intro dd out
  induction out with
  | nil =>
    intro h
    simp at h
  | cons c rest ih =>
    intro h
    simp only [truncTo]
    by_cases hc : dd < rest.length ∧ c ≠ '/'
    · rw [if_pos hc]
      obtain ⟨h1, t, h2⟩ := ih hc.1
      exact ⟨h1, c :: t, by rw [List.cons_append, ← h2]⟩
    · rw [if_neg hc]
      refine ⟨?_, [c], rfl⟩
      simp only [List.length_cons] at h
      omega

theorem getLast?_of_append {out res : List Char} (hr : res ≠ [])
    (h : ∃ t, out = t ++ res) : out.getLast? = res.getLast? := by
  obtain ⟨t, ht⟩ := h
  rw [ht]
  exact List.getLast?_append_of_ne_nil _ hr

theorem cleanGo_rooted_inv : ∀ (fuel : Nat) (input out : List Char),
    out ≠ [] → out.getLast? = some '/' →
    cleanGo true fuel 1 out input ≠ [] ∧
      (cleanGo true fuel 1 out input).getLast? = some '/' := by
  intro fuel
  induction fuel with
  | zero =>
    intro input out h1 h2
    exact ⟨h1, h2⟩
  | succ fuel ih =>
    intro input out h1 h2
    cases input with
    | nil => exact ⟨h1, h2⟩
    | cons c rest =>
      simp only [cleanGo]
      split_ifs with hsep hdot hdd hlen hfalse hval
      · exact ih rest out h1 h2
      · exact ih rest out h1 h2
      · -- `..` with backtracking
        obtain ⟨hl, hsuf⟩ := truncTo_spec 1 out hlen
        have hne : truncTo 1 out ≠ [] := by
          intro hh
          rw [hh] at hl
          simp at hl
        have hlast : (truncTo 1 out).getLast? = some '/' := by
          rw [← getLast?_of_append hne hsuf]
          exact h2
        exact ih rest.tail (truncTo 1 out) hne hlast
      · exact absurd hfalse (by simp)
      · exact ih rest.tail out h1 h2
      · -- ordinary element, separator prepended
        apply ih
        · simp
        · rw [List.getLast?_append_of_ne_nil _ (by simp : ('/' :: out : List Char) ≠ [])]
          rw [show ('/' :: out : List Char) = ['/'] ++ out from rfl,
            List.getLast?_append_of_ne_nil _ h1]
          exact h2
      · -- ordinary element, no separator needed
        apply ih
        · simp [h1]
        · rw [List.getLast?_append_of_ne_nil _ h1]
          exact h2

theorem cleanPath_rooted (p : List Char) (h : isAbs p = true) :
    isAbs (cleanPath p) = true := by
  have hp : p ≠ [] := by
    intro hh
    rw [hh] at h
    simp [isAbs] at h
  simp only [cleanPath, if_neg hp, h, if_pos rfl, if_true]
  obtain ⟨hne, hlast⟩ :=
    cleanGo_rooted_inv (p.length + 1) p.tail [('/')] (by simp) (by rfl)
  rw [if_neg hne]
  simp only [isAbs, List.head?_reverse, decide_eq_true_eq]
  exact hlast

theorem absPath_abs (cwd p : List Char) (h : isAbs cwd = true) :
    isAbs (absPath cwd p) = true := by
  unfold absPath
  by_cases hp : isAbs p = true
  · simp only [hp, if_true]
    exact cleanPath_rooted p hp
  · simp only [hp]
    rw [if_neg (by simp [hp])]
    unfold joinPath
    have hcwd : cwd ≠ [] := by
      intro hc
      rw [hc] at h
      simp [isAbs] at h
    rw [if_neg hcwd]
    apply cleanPath_rooted
    cases cwd with
    | nil => exact absurd rfl hcwd
    | cons c cs =>
      simp only [isAbs, List.head?_cons, Option.some.injEq] at h
      simp [isAbs, h]

/-- C4: for a path with (case-insensitive) `.rar` extension whose base name
matches `<basename>.part<N>.rar`, the resolver reports multi-volume, returns
as first volume the absolute path of the part-1-substituted file name, and
the sibling volumes enumerated by the glob pattern `<basename>.part*<ext>`
sorted with the natural-order comparator; on the naturally ordered set,
volume 1 precedes volume 2 precedes volume 10. -/
theorem claim_C4 :
    (∀ (glob : List Char → List (List Char)) (cwd p bn num ex : List Char),
      lowerStr (extPath p) = (".rar").toList →
      Unrarwrapper.findPartMatch (basePath p) = some (bn, num, ex) →
      Unrarwrapper.multiVolArchiveDetect glob cwd p =
        (true,
         absPath cwd (joinPath (dirPath p) (bn ++ (".part1").toList ++ ex)),
         Unrarwrapper.sortNat
           (glob (joinPath (dirPath p) (bn ++ (".part*").toList ++ ex))))) ∧
    Unrarwrapper.sortNat
      [("archive.part2.rar").toList, ("archive.part10.rar").toList,
       ("archive.part1.rar").toList] =
      [("archive.part1.rar").toList, ("archive.part2.rar").toList,
       ("archive.part10.rar").toList] := by
  constructor
  · intro glob cwd p bn num ex hext hm
    simp [Unrarwrapper.multiVolArchiveDetect, hext, hm]
  · decide

/-- C4 witness: the theorem applied to `/d/a.part2.rar` with siblings
part1, part2, part10; the glob result comes back naturally sorted. -/
theorem claim_C4_witness :
    Unrarwrapper.multiVolArchiveDetect
      (fun _ => [("/d/a.part2.rar").toList, ("/d/a.part10.rar").toList,
                 ("/d/a.part1.rar").toList])
      (("/w").toList) (("/d/a.part2.rar").toList) =
    (true, ("/d/a.part1.rar").toList,
     [("/d/a.part1.rar").toList, ("/d/a.part2.rar").toList,
      ("/d/a.part10.rar").toList]) :=
  (claim_C4.1
    (fun _ => [("/d/a.part2.rar").toList, ("/d/a.part10.rar").toList,
               ("/d/a.part1.rar").toList])
    (("/w").toList) (("/d/a.part2.rar").toList) (("a").toList) (("2").toList)
    ((".rar").toList) (by decide) (by decide)).trans (by decide)

/-- C5, corrected claim: a path whose extension is not `.rar` is returned
unchanged with itself as sole volume; but a `.rar` path whose base name does
not match the part pattern yields the absolute (cleaned) input path — not the
input path verbatim — and an EMPTY volume list, not the singleton of the
input path. -/
theorem claim_C5_amended :
    ∀ (glob : List Char → List (List Char)) (cwd p : List Char),
      (lowerStr (extPath p) ≠ (".rar").toList →
        Unrarwrapper.multiVolArchiveDetect glob cwd p = (false, p, [p])) ∧
      (lowerStr (extPath p) = (".rar").toList →
        Unrarwrapper.findPartMatch (basePath p) = none →
        Unrarwrapper.multiVolArchiveDetect glob cwd p = (false, absPath cwd p, [])) := by
  intro glob cwd p
  constructor
  · intro h
    unfold Unrarwrapper.multiVolArchiveDetect
    rw [if_pos h]
  · intro h hm
    unfold Unrarwrapper.multiVolArchiveDetect
    rw [if_neg (fun hh => hh h), hm]
    rfl

/-- C5, counterexample to the claim as stated: for `"plain.rar"` (extension
matches, part pattern does not) with working directory `/w` the resolver
returns first volume `/w/plain.rar` (not the input path) and an empty volume
list (not `{input path}`). -/
theorem claim_C5_counterexample :
    Unrarwrapper.multiVolArchiveDetect (fun _ => []) (("/w").toList)
      (("plain.rar").toList) = (false, ("/w/plain.rar").toList, []) ∧
    (Unrarwrapper.multiVolArchiveDetect (fun _ => []) (("/w").toList)
      (("plain.rar").toList)).2.2 ≠ [("plain.rar").toList] ∧
    (Unrarwrapper.multiVolArchiveDetect (fun _ => []) (("/w").toList)
      (("plain.rar").toList)).2.1 ≠ ("plain.rar").toList := by decide

/-- C5 witness: the amended theorem applied at `"plain.zip"` (non-matching
extension) and `"noparts.rar"` (matching extension, no part pattern). -/
theorem claim_C5_witness :
    Unrarwrapper.multiVolArchiveDetect (fun _ => []) (("/w").toList)
      (("plain.zip").toList) =
      (false, ("plain.zip").toList, [("plain.zip").toList]) ∧
    Unrarwrapper.multiVolArchiveDetect (fun _ => []) (("/w").toList)
      (("noparts.rar").toList) =
      (false, absPath (("/w").toList) (("noparts.rar").toList), []) :=
  ⟨(claim_C5_amended (fun _ => []) (("/w").toList) (("plain.zip").toList)).1 (by decide),
   (claim_C5_amended (fun _ => []) (("/w").toList) (("noparts.rar").toList)).2
     (by decide) (by decide)⟩

/-- C6, corrected claim: in the two `.rar` branches (part pattern matching or
not) the returned first-volume path is absolute, given an absolute working
directory; but in the non-matching-extension branch the code returns the
input path unchanged before ever calling `Abs`, so the first-volume path is
NOT always absolute. -/
theorem claim_C6_amended :
    ∀ (glob : List Char → List (List Char)) (cwd p : List Char),
      isAbs cwd = true →
      (lowerStr (extPath p) = (".rar").toList →
        isAbs (Unrarwrapper.multiVolArchiveDetect glob cwd p).2.1 = true) ∧
      (lowerStr (extPath p) ≠ (".rar").toList →
        (Unrarwrapper.multiVolArchiveDetect glob cwd p).2.1 = p) := by
  intro glob cwd p hcwd
  constructor
  · intro hext
    unfold Unrarwrapper.multiVolArchiveDetect
    rw [if_neg (by simp [hext])]
    cases hm : Unrarwrapper.findPartMatch (basePath p) with
    | none => exact absPath_abs cwd p hcwd
    | some r =>
      obtain ⟨bn, num, ex⟩ := r
      exact absPath_abs cwd _ hcwd
  · intro hext
    unfold Unrarwrapper.multiVolArchiveDetect
    rw [if_pos hext]

/-- C6, counterexample to the claim as stated: for the relative input
`"plain.zip"` (non-matching extension branch) the returned first-volume path
is the input itself, which is not absolute. -/
theorem claim_C6_counterexample :
    (Unrarwrapper.multiVolArchiveDetect (fun _ => []) (("/w").toList)
      (("plain.zip").toList)).2.1 = ("plain.zip").toList ∧
    isAbs (("plain.zip").toList) = false := by decide

/-- C6 witness: the amended theorem applied at a relative `.rar` path and at
a relative non-`.rar` path. -/
theorem claim_C6_witness :
    isAbs (Unrarwrapper.multiVolArchiveDetect (fun _ => []) (("/w").toList)
      (("x.rar").toList)).2.1 = true ∧
    (Unrarwrapper.multiVolArchiveDetect (fun _ => []) (("/w").toList)
      (("rel.zip").toList)).2.1 = ("rel.zip").toList :=
  ⟨(claim_C6_amended (fun _ => []) (("/w").toList) (("x.rar").toList)
      (by decide)).1 (by decide),
   (claim_C6_amended (fun _ => []) (("/w").toList) (("rel.zip").toList)
      (by decide)).2 (by decide)⟩

theorem defaultBlank_ne_nil (v0 : List Char) : Lzmadec.defaultBlank v0 ≠ [] := by
  unfold Lzmadec.defaultBlank
  split_ifs with h
  · simp
  · exact h

theorem applyKey_ne_emptyPath (k : Lzmadec.Key) (e : Lzmadec.Entry) (v : List Char)
    (hv : v ≠ []) : Lzmadec.applyKey k e v ≠ .error .emptyPath := by
  intro hc
  cases k <;> simp only [Lzmadec.applyKey] at hc <;>
    (try (repeat' split at hc)) <;>
    first
      | (exact hv (by assumption))
      | cases hc

theorem applyKey_ne_noEntries (k : Lzmadec.Key) (e : Lzmadec.Entry) (v : List Char) :
    Lzmadec.applyKey k e v ≠ .error .noEntries := by
  intro hc
  cases k <;> simp only [Lzmadec.applyKey] at hc <;>
    (try (repeat' split at hc)) <;>
    cases hc

theorem keyOf_mem (nm : List Char) (k : Lzmadec.Key) (h : Lzmadec.keyOf nm = k)
    (hk : k ≠ .kunknown) : (nm, k) ∈ Lzmadec.keyTable := by
  unfold Lzmadec.keyOf at h
  cases hf : Lzmadec.keyTable.find? (fun p => p.1 = nm) with
  | none =>
    rw [hf] at h
    exact absurd h.symm hk
  | some pr =>
    rw [hf] at h
    obtain ⟨s, k2⟩ := pr
    have h2 : k2 = k := h
    have hmem := List.mem_of_find?_eq_some hf
    have hps := List.find?_some hf
    simp only [decide_eq_true_eq] at hps
    rw [hps, h2] at hmem
    exact hmem

theorem keyOf_kpath (nm : List Char) (h : Lzmadec.keyOf nm = .kpath) :
    nm = ("path").toList := by
  have hmem := keyOf_mem nm .kpath h (by simp)
  simp only [Lzmadec.keyTable, List.mem_cons, Prod.mk.injEq, List.not_mem_nil,
    or_false] at hmem
  simp only [reduceCtorEq, and_false, or_false, false_or] at hmem
  exact hmem.1

theorem keyOf_kpacked (nm : List Char) (h : Lzmadec.keyOf nm = .kpacked) :
    nm = ("packed size").toList := by
  have hmem := keyOf_mem nm .kpacked h (by simp)
  simp only [Lzmadec.keyTable, List.mem_cons, Prod.mk.injEq, List.not_mem_nil,
    or_false] at hmem
  simp only [reduceCtorEq, and_false, or_false, false_or] at hmem
  exact hmem.1

theorem keyOf_kphysicalsize (nm : List Char) (h : Lzmadec.keyOf nm = .kphysicalsize) :
    nm = ("physical size").toList := by
  have hmem := keyOf_mem nm .kphysicalsize h (by simp)
  simp only [Lzmadec.keyTable, List.mem_cons, Prod.mk.injEq, List.not_mem_nil,
    or_false] at hmem
  simp only [reduceCtorEq, and_false, or_false, false_or] at hmem
  exact hmem.1

theorem dispatch_ne_emptyPath (e : Lzmadec.Entry) (nm v : List Char) (hv : v ≠ []) :
    Lzmadec.dispatch e nm v ≠ .error .emptyPath :=
  applyKey_ne_emptyPath (Lzmadec.keyOf nm) e v hv

theorem dispatch_ne_noEntries (e : Lzmadec.Entry) (nm v : List Char) :
    Lzmadec.dispatch e nm v ≠ .error .noEntries :=
  applyKey_ne_noEntries (Lzmadec.keyOf nm) e v

theorem applyKey_path_preserved (k : Lzmadec.Key) (e : Lzmadec.Entry) (v : List Char)
    (hk : k ≠ .kpath) (e' : Lzmadec.Entry)
    (h : Lzmadec.applyKey k e v = .ok e') : e'.Path = e.Path := by
  cases k <;> simp only [Lzmadec.applyKey] at h <;>
    (try (repeat' split at h)) <;>
    first
      | (exact absurd rfl hk)
      | (rw [← Except.ok.inj h])
      | cases h

theorem applyKey_packed_preserved (k : Lzmadec.Key) (e : Lzmadec.Entry) (v : List Char)
    (h1 : k ≠ .kpacked) (h2 : k ≠ .kphysicalsize) (e' : Lzmadec.Entry)
    (h : Lzmadec.applyKey k e v = .ok e') : e'.PackedSize = e.PackedSize := by
  cases k <;> simp only [Lzmadec.applyKey] at h <;>
    (try (repeat' split at h)) <;>
    first
      | (exact absurd rfl h1)
      | (exact absurd rfl h2)
      | (rw [← Except.ok.inj h])
      | cases h

theorem dispatch_path_preserved (e : Lzmadec.Entry) (nm v : List Char)
    (hnm : nm ≠ ("path").toList) (e' : Lzmadec.Entry)
    (h : Lzmadec.dispatch e nm v = .ok e') : e'.Path = e.Path :=
  applyKey_path_preserved (Lzmadec.keyOf nm) e v
    (fun hh => hnm (keyOf_kpath nm hh)) e' h

theorem dispatch_packed_preserved (e : Lzmadec.Entry) (nm v : List Char)
    (h1 : nm ≠ ("packed size").toList) (h2 : nm ≠ ("physical size").toList)
    (e' : Lzmadec.Entry) (h : Lzmadec.dispatch e nm v = .ok e') :
    e'.PackedSize = e.PackedSize :=
  applyKey_packed_preserved (Lzmadec.keyOf nm) e v
    (fun hh => h1 (keyOf_kpacked nm hh)) (fun hh => h2 (keyOf_kphysicalsize nm hh)) e' h

theorem processLine_ne_emptyPath (e : Lzmadec.Entry) (s : List Char) :
    Lzmadec.processLine e s ≠ .error .emptyPath := by
  unfold Lzmadec.processLine
  cases hsp : splitOnFirst ((" =").toList) s with
  | none => simp
  | some kv =>
    obtain ⟨k, rest⟩ := kv
    exact dispatch_ne_emptyPath e (lowerStr k) _ (defaultBlank_ne_nil (trimS rest))

theorem processLine_ne_noEntries (e : Lzmadec.Entry) (s : List Char) :
    Lzmadec.processLine e s ≠ .error .noEntries := by
  unfold Lzmadec.processLine
  cases hsp : splitOnFirst ((" =").toList) s with
  | none => simp
  | some kv =>
    obtain ⟨k, rest⟩ := kv
    exact dispatch_ne_noEntries e (lowerStr k) _

theorem parseLinesGo_ne_err (er : Lzmadec.Err)
    (hp : ∀ (e : Lzmadec.Entry) (s : List Char), Lzmadec.processLine e s ≠ .error er) :
    ∀ (lines : List (List Char)) (e : Lzmadec.Entry),
      Lzmadec.parseLinesGo e lines ≠ .error er := by
  intro lines
  induction lines with
  | nil =>
    intro e
    simp [Lzmadec.parseLinesGo]
  | cons s rest ih =>
    intro e
    simp only [Lzmadec.parseLinesGo]
    cases hps : Lzmadec.processLine e s with
    | error e2 =>
      intro hc
      apply hp e s
      rw [hps]
      exact hc
    | ok e' => exact ih e'

theorem parseLinesGo_error_of_badLine :
    ∀ (lines : List (List Char)) (s : List Char), s ∈ lines →
      splitOnFirst ((" =").toList) s = none →
      ∀ e : Lzmadec.Entry, ∃ er, Lzmadec.parseLinesGo e lines = .error er := by
  intro lines
  induction lines with
  | nil =>
    intro s hs
    cases hs
  | cons t rest ih =>
    intro s hs hsp e
    rcases List.mem_cons.mp hs with hs | hs
    · subst hs
      have hpl : Lzmadec.processLine e s = .error (.badLine s) := by
        unfold Lzmadec.processLine
        rw [hsp]
      refine ⟨.badLine s, ?_⟩
      simp only [Lzmadec.parseLinesGo]
      rw [hpl]
    · cases hps : Lzmadec.processLine e t with
      | error er =>
        refine ⟨er, ?_⟩
        simp only [Lzmadec.parseLinesGo]
        rw [hps]
      | ok e' =>
        obtain ⟨er, her⟩ := ih s hs hsp e'
        refine ⟨er, ?_⟩
        simp only [Lzmadec.parseLinesGo]
        rw [hps]
        exact her

theorem parseLinesGo_path_nil :
    ∀ (lines : List (List Char)),
      (∀ s k v, s ∈ lines → splitOnFirst ((" =").toList) s = some (k, v) →
        lowerStr k ≠ ("path").toList) →
      ∀ e e' : Lzmadec.Entry, Lzmadec.parseLinesGo e lines = .ok e' →
        e'.Path = e.Path := by
  intro lines
  induction lines with
  | nil =>
    intro _ e e' h
    simp only [Lzmadec.parseLinesGo] at h
    rw [Except.ok.inj h]
  | cons s rest ih =>
    intro hk e e' h
    simp only [Lzmadec.parseLinesGo] at h
    cases hps : Lzmadec.processLine e s with
    | error er =>
      rw [hps] at h
      cases h
    | ok e1 =>
      rw [hps] at h
      have hstep : e1.Path = e.Path := by
        unfold Lzmadec.processLine at hps
        cases hsp : splitOnFirst ((" =").toList) s with
        | none =>
          rw [hsp] at hps
          cases hps
        | some kv =>
          obtain ⟨k, rest2⟩ := kv
          rw [hsp] at hps
          exact dispatch_path_preserved e (lowerStr k) _
            (hk s k rest2 (by simp) hsp) e1 hps
      have htail : e'.Path = e1.Path :=
        ih (fun s2 k v hs2 hsp2 => hk s2 k v (by simp [hs2]) hsp2) e1 e' h
      rw [htail, hstep]

theorem parseLinesGo_packed_zero :
    ∀ (lines : List (List Char)),
      (∀ s k v, s ∈ lines → splitOnFirst ((" =").toList) s = some (k, v) →
        lowerStr k ≠ ("packed size").toList ∧ lowerStr k ≠ ("physical size").toList) →
      ∀ e e' : Lzmadec.Entry, Lzmadec.parseLinesGo e lines = .ok e' →
        e'.PackedSize = e.PackedSize := by
  intro lines
  induction lines with
  | nil =>
    intro _ e e' h
    simp only [Lzmadec.parseLinesGo] at h
    rw [Except.ok.inj h]
  | cons s rest ih =>
    intro hk e e' h
    simp only [Lzmadec.parseLinesGo] at h
    cases hps : Lzmadec.processLine e s with
    | error er =>
      rw [hps] at h
      cases h
    | ok e1 =>
      rw [hps] at h
      have hstep : e1.PackedSize = e.PackedSize := by
        unfold Lzmadec.processLine at hps
        cases hsp : splitOnFirst ((" =").toList) s with
        | none =>
          rw [hsp] at hps
          cases hps
        | some kv =>
          obtain ⟨k, rest2⟩ := kv
          rw [hsp] at hps
          exact dispatch_packed_preserved e (lowerStr k) _
            (hk s k rest2 (by simp) hsp).1 (hk s k rest2 (by simp) hsp).2 e1 hps
      have htail : e'.PackedSize = e1.PackedSize :=
        ih (fun s2 k v hs2 hsp2 => hk s2 k v (by simp [hs2]) hsp2) e1 e' h
      rw [htail, hstep]

theorem parseEntryLines_ne_noEntries (lines : List (List Char)) :
    Lzmadec.parseEntryLines lines ≠ .error .noEntries :=
  parseLinesGo_ne_err .noEntries processLine_ne_noEntries lines {}

theorem listLoop_ne_noEntries : ∀ (ls acc : List (List Char)),
    Lzmadec.listLoop acc ls ≠ .error .noEntries := by
  intro ls
  induction ls with
  | nil =>
    intro acc
    simp only [Lzmadec.listLoop]
    by_cases hb : acc.reverse = []
    · rw [if_pos hb]
      simp
    · rw [if_neg hb]
      cases hp : Lzmadec.parseEntryLines acc.reverse with
      | error er =>
        have her : er ≠ Lzmadec.Err.noEntries := by
          intro hh
          apply parseEntryLines_ne_noEntries acc.reverse
          rw [hp, hh]
        simp [her]
      | ok e => simp
  | cons l rest ih =>
    intro acc
    simp only [Lzmadec.listLoop]
    by_cases ht : trimS l = [] ∨ trimS l = Lzmadec.NormalSep
    · rw [if_pos ht]
      by_cases hb : acc.reverse = []
      · rw [if_pos hb]
        simp
      · rw [if_neg hb]
        cases hp : Lzmadec.parseEntryLines acc.reverse with
        | error er =>
          have her : er ≠ Lzmadec.Err.noEntries := by
            intro hh
            apply parseEntryLines_ne_noEntries acc.reverse
            rw [hp, hh]
          simp [her]
        | ok e =>
          cases hr : Lzmadec.listLoop [] rest with
          | error er =>
            have her : er ≠ Lzmadec.Err.noEntries := fun hh => ih [] (by rw [hr, hh])
            simp [hr, Except.map, her]
          | ok r => simp [hr, Except.map]
    · rw [if_neg ht]
      exact ih (trimS l :: acc)

theorem advanceGo_none_iff : ∀ (ls : List (List Char)) (k : Nat), k ≤ 1 →
    (Lzmadec.advanceGo k ls = none ↔
      (k + ls.count Lzmadec.RpmSep ≤ 1 ∧ Lzmadec.NormalSep ∉ ls)) := by
  intro ls
  induction ls with
  | nil =>
    intro k hk
    simp [Lzmadec.advanceGo, hk]
  | cons l rest ih =>
    intro k hk
    simp only [Lzmadec.advanceGo]
    by_cases hrpm : l = Lzmadec.RpmSep
    · rw [if_pos hrpm]
      have hcnt : (l :: rest).count Lzmadec.RpmSep = rest.count Lzmadec.RpmSep + 1 := by
        rw [List.count_cons]
        simp [hrpm]
      have hlsep : l ≠ Lzmadec.NormalSep := by
        rw [hrpm]
        decide
      have hmem : (Lzmadec.NormalSep ∈ l :: rest) ↔ (Lzmadec.NormalSep ∈ rest) := by
        simp only [List.mem_cons]
        constructor
        · rintro (h | h)
          · exact absurd h.symm hlsep
          · exact h
        · exact fun h => Or.inr h
      by_cases hc2 : k + 1 = 2
      · rw [if_pos hc2]
        simp only [hcnt]
        constructor
        · intro h
          cases h
        · rintro ⟨h1, _⟩
          omega
      · rw [if_neg hc2, if_neg hlsep]
        rw [ih (k + 1) (by omega)]
        rw [hcnt, hmem]
        constructor
        · rintro ⟨h1, h2⟩
          exact ⟨by omega, h2⟩
        · rintro ⟨h1, h2⟩
          exact ⟨by omega, h2⟩
    · rw [if_neg hrpm]
      have hcnt : (l :: rest).count Lzmadec.RpmSep = rest.count Lzmadec.RpmSep := by
        rw [List.count_cons]
        simp [hrpm]
      rw [if_neg (by omega : ¬ k = 2)]
      by_cases hnm : l = Lzmadec.NormalSep
      · rw [if_pos hnm]
        constructor
        · intro h
          cases h
        · rintro ⟨_, h2⟩
          exact absurd (by simp [hnm]) h2
      · rw [if_neg hnm]
        rw [ih k hk, hcnt]
        have hmem : (Lzmadec.NormalSep ∈ l :: rest) ↔ (Lzmadec.NormalSep ∈ rest) := by
          simp only [List.mem_cons]
          constructor
          · rintro (h | h)
            · exact absurd h.symm hnm
            · exact h
          · exact fun h => Or.inr h
        rw [hmem]

/-- C1, corrected claim: any block line that cannot be split on the first
`" ="` into exactly two parts makes the parse fail with an error; but an
Entry's identity need NOT be nonempty: an empty `Path` value is replaced by
the string `"0"` rather than rejected (see C10), and a block with no `Path`
key at all parses successfully to an Entry whose Path is empty, which
`parse7zListOutput` appends to the result (the skip of empty-path items is
commented out in the source). -/
theorem claim_C1_amended :
    (∀ (lines : List (List Char)) (s : List Char), s ∈ lines →
      splitOnFirst ((" =").toList) s = none →
      ∃ er, Lzmadec.parseEntryLines lines = .error er) ∧
    (∀ (lines : List (List Char)) (e : Lzmadec.Entry),
      (∀ s k v, s ∈ lines → splitOnFirst ((" =").toList) s = some (k, v) →
        lowerStr k ≠ ("path").toList) →
      Lzmadec.parseEntryLines lines = .ok e → e.Path = []) := by
  constructor
  · intro lines s hs hsp
    exact parseLinesGo_error_of_badLine lines s hs hsp {}
  · intro lines e hk h
    exact parseLinesGo_path_nil lines hk {} e h

/-- C1, counterexample to the claim as stated: the input
`"----------\nSize = 5"` contains one block with no `Path` key; the parser
does not reject it — it returns (with no error) a single Entry whose Path is
the empty string. -/
theorem claim_C1_counterexample :
    (Lzmadec.parse7zListOutput (("----------\nSize = 5").toList)).map
      (fun es => es.map (fun e => e.Path)) = .ok [[]] := by decide

/-- C1 witness: the amended theorem applied at a line without `" ="` and at a
block whose only key is `Size`. -/
theorem claim_C1_witness :
    (∃ er, Lzmadec.parseEntryLines [("junk line").toList] = .error er) ∧
    ({ Size := 5 } : Lzmadec.Entry).Path = [] :=
  ⟨claim_C1_amended.1 [("junk line").toList] (("junk line").toList) (by simp) (by decide),
   claim_C1_amended.2 [("Size = 5").toList] ({ Size := 5 } : Lzmadec.Entry)
     (by
       intro s k v hs hsp
       have hs2 : s = ("Size = 5").toList := by simpa using hs
       subst hs2
       have he : splitOnFirst ((" =").toList) (("Size = 5").toList) =
           some ((("Size").toList), ((" 5").toList)) := by decide
       rw [he] at hsp
       injection hsp with h1
       injection h1 with hk hv
       rw [← hk]
       decide)
     (by decide)⟩

/-- C7, corrected claim: `parse7zListOutput` returns `ErrNoEntries` exactly
when the stream ends without the start sentinel ever being found (fewer than
two `"--"` lines and no `"----------"` line); when the sentinel IS found but
no entry blocks follow it, the parser returns zero entries and a nil error —
not `ErrNoEntries` as the claim states. -/
theorem claim_C7_amended :
    (∀ d : List Char,
      Lzmadec.parse7zListOutput d = .error .noEntries ↔
        ((splitLines d).count Lzmadec.RpmSep ≤ 1 ∧
          Lzmadec.NormalSep ∉ splitLines d)) ∧
    (∀ (d : List Char) (ls : List (List Char)),
      Lzmadec.advanceToFirstEntry (splitLines d) = some ls →
      (∀ l, ls.head? = some l → trimS l = [] ∨ trimS l = Lzmadec.NormalSep) →
      Lzmadec.parse7zListOutput d = .ok []) := by
  constructor
  · intro d
    unfold Lzmadec.parse7zListOutput
    cases hadv : Lzmadec.advanceToFirstEntry (splitLines d) with
    | none =>
      have hiff := advanceGo_none_iff (splitLines d) 0 (by omega)
      simp only [Lzmadec.advanceToFirstEntry] at hadv
      rw [hadv] at hiff
      simp only [Nat.zero_add] at hiff
      exact iff_of_true rfl (hiff.mp trivial)
    | some ls =>
      apply iff_of_false
      · exact listLoop_ne_noEntries ls []
      · intro hrhs
        have hiff := advanceGo_none_iff (splitLines d) 0 (by omega)
        simp only [Lzmadec.advanceToFirstEntry] at hadv
        rw [hadv] at hiff
        simp only [Nat.zero_add] at hiff
        cases hiff.mpr hrhs
  · intro d ls hadv hhead
    unfold Lzmadec.parse7zListOutput
    rw [hadv]
    cases ls with
    | nil => rfl
    | cons l rest =>
      simp only [Lzmadec.listLoop]
      rw [if_pos (hhead l rfl)]
      simp

/-- C7, counterexample to the claim as stated: `"----------"` alone — the
sentinel is found but no blocks follow; the claim says this is `NoEntries`,
but the parser returns zero entries with no error. -/
theorem claim_C7_counterexample :
    Lzmadec.parse7zListOutput (("----------").toList) = .ok [] ∧
    Lzmadec.parse7zListOutput (("----------").toList) ≠ .error .noEntries := by decide

/-- C7 witness: the amended theorem applied at a sentinel-free stream and at
a sentinel-only stream. -/
theorem claim_C7_witness :
    Lzmadec.parse7zListOutput (("hello\nworld").toList) = .error .noEntries ∧
    Lzmadec.parse7zListOutput (("--\njunk\n--").toList) = .ok [] :=
  ⟨(claim_C7_amended.1 (("hello\nworld").toList)).mpr ⟨by decide, by decide⟩,
   claim_C7_amended.2 (("--\njunk\n--").toList) [] (by decide)
     (fun l h => Option.noConfusion h)⟩

/-- C8, corrected claim: a `Packed Size` line with an empty value yields the
numeric value 0 via the blank-value default; but when the key is altogether
absent (and no `Physical Size` back-fill occurs) the Entry's PackedSize stays
at the zero value 0 — the -1 "unknown" sentinel is never observable, because
the source overwrites it immediately (the guarding `v != ""` is always true
after the default). -/
theorem claim_C8_amended :
    (∀ (e : Lzmadec.Entry) (s k rest : List Char),
      splitOnFirst ((" =").toList) s = some (k, rest) →
      lowerStr k = ("packed size").toList → trimS rest = [] →
      Lzmadec.processLine e s = .ok { e with PackedSize := 0 }) ∧
    (∀ (lines : List (List Char)) (e : Lzmadec.Entry),
      (∀ s k v, s ∈ lines → splitOnFirst ((" =").toList) s = some (k, v) →
        lowerStr k ≠ ("packed size").toList ∧
          lowerStr k ≠ ("physical size").toList) →
      Lzmadec.parseEntryLines lines = .ok e → e.PackedSize = 0) := by
  constructor
  · intro e s k rest hsp hk hv
    unfold Lzmadec.processLine
    rw [hsp]
    show Lzmadec.dispatch e (lowerStr k) (Lzmadec.defaultBlank (trimS rest)) =
      .ok { e with PackedSize := 0 }
    rw [hk, hv]
    rfl
  · intro lines e hk h
    exact parseLinesGo_packed_zero lines hk {} e h

/-- C8, counterexample to the claim as stated: a block whose only line is
`"Path = a"` has no `Packed Size` key; the claim says PackedSize must then be
the -1 sentinel, but the parsed Entry has PackedSize 0. -/
theorem claim_C8_counterexample :
    (Lzmadec.parseEntryLines [("Path = a").toList]).map (fun e => e.PackedSize) =
      .ok 0 ∧
    (Lzmadec.parseEntryLines [("Path = a").toList]).map (fun e => e.PackedSize) ≠
      .ok (-1) := by decide

/-- C8 witness: the amended theorem applied at the line `"Packed Size ="` and
at the one-line block `"Path = a"`. -/
theorem claim_C8_witness :
    Lzmadec.processLine {} (("Packed Size =").toList) =
      .ok { ({} : Lzmadec.Entry) with PackedSize := 0 } ∧
    ({ Path := ("a").toList } : Lzmadec.Entry).PackedSize = 0 :=
  ⟨claim_C8_amended.1 {} (("Packed Size =").toList) (("Packed Size").toList) []
     (by decide) (by decide) (by decide),
   claim_C8_amended.2 [("Path = a").toList] ({ Path := ("a").toList } : Lzmadec.Entry)
     (by
       intro s k v hs hsp
       have hs2 : s = ("Path = a").toList := by simpa using hs
       subst hs2
       have he : splitOnFirst ((" =").toList) (("Path = a").toList) =
           some ((("Path").toList), ((" a").toList)) := by decide
       rw [he] at hsp
       injection hsp with h1
       injection h1 with hk hv
       rw [← hk]
       constructor <;> decide)
     (by decide)⟩

/-- C10: a `Path` key whose value trims to the empty string stores the string
`"0"` as the Entry's Path with no error (the blank-value default runs before
the emptiness check), and the `"path field can not be empty"` error branch is
unreachable: `parseEntryLines` never returns it, on any input. -/
theorem claim_C10 :
    (∀ (e : Lzmadec.Entry) (s k rest : List Char),
      splitOnFirst ((" =").toList) s = some (k, rest) →
      lowerStr k = ("path").toList → trimS rest = [] →
      Lzmadec.processLine e s = .ok { e with Path := ("0").toList }) ∧
    (∀ lines : List (List Char),
      Lzmadec.parseEntryLines lines ≠ .error .emptyPath) := by
  constructor
  · intro e s k rest hsp hk hv
    unfold Lzmadec.processLine
    rw [hsp]
    show Lzmadec.dispatch e (lowerStr k) (Lzmadec.defaultBlank (trimS rest)) =
      .ok { e with Path := ("0").toList }
    rw [hk, hv]
    rfl
  · intro lines
    exact parseLinesGo_ne_err .emptyPath processLine_ne_emptyPath lines {}

/-- C10 witness: the theorem applied at the line `"Path ="` and at an
arbitrary concrete block. -/
theorem claim_C10_witness :
    Lzmadec.processLine {} (("Path =").toList) =
      .ok { ({} : Lzmadec.Entry) with Path := ("0").toList } ∧
    Lzmadec.parseEntryLines [("Size = 7").toList] ≠ .error .emptyPath :=
  ⟨claim_C10.1 {} (("Path =").toList) (("Path").toList) [] (by decide) (by decide)
     (by decide),
   claim_C10.2 [("Size = 7").toList]⟩

theorem listLoopU_step (l : List Char) (ls acc : List (List Char))
    (hl : trimS l = l) (hne : l ≠ []) :
    Unrarwrapper.listLoop acc (l :: ls) = Unrarwrapper.listLoop (l :: acc) ls := by
  have h2 : ¬ (trimS l = [] ∨ trimS l = Unrarwrapper.NormalSep) := by
    rw [hl]
    rintro (h | h)
    · exact hne h
    · rw [h] at hl
      exact absurd hl (by decide)
  simp only [Unrarwrapper.listLoop]
  rw [if_neg h2, hl]

theorem listLoopU_blocklines : ∀ (bl : List (List Char)),
    (∀ l ∈ bl, trimS l = l ∧ l ≠ []) →
    ∀ acc rest, Unrarwrapper.listLoop acc (bl ++ rest) =
      Unrarwrapper.listLoop (bl.reverse ++ acc) rest := by
  intro bl
  induction bl with
  | nil =>
    intro _ acc rest
    simp
  | cons b bs ih =>
    intro h acc rest
    rw [List.cons_append,
      listLoopU_step b (bs ++ rest) acc (h b (by simp)).1 (h b (by simp)).2,
      ih (fun l hl => h l (by simp [hl])) (b :: acc) rest]
    simp [List.reverse_cons, List.append_assoc]

theorem listLoopU_skip (bl ls : List (List Char)) (e : Unrarwrapper.Entry)
    (hbl : ∀ l ∈ bl, trimS l = l ∧ l ≠ []) (hne : bl ≠ [])
    (hp : Unrarwrapper.parseEntryLines bl = .ok e) (hn : e.Name = []) :
    Unrarwrapper.listLoop [] (bl ++ [] :: ls) = Unrarwrapper.listLoop [] ls := by
  rw [listLoopU_blocklines bl hbl [] ([] :: ls)]
  simp only [Unrarwrapper.listLoop]
  rw [if_pos (Or.inl (by decide : trimS [] = []))]
  have hrev : (bl.reverse ++ ([] : List (List Char))).reverse = bl := by simp
  rw [hrev]
  rw [if_neg hne, hp]
  simp [hn]

/-- C9: in the native-rar dialect, a block that parses to an Entry with empty
`Name` is skipped (the source logs a warning and continues) rather than
failing the parse, and the remaining stream is processed exactly as if the
block were not there, so all subsequent valid blocks are still parsed and
returned in order. -/
theorem claim_C9 (d : List Char) (bl ls : List (List Char)) (e : Unrarwrapper.Entry)
    (hadv : Unrarwrapper.advanceToFirstEntry (splitLines d) = some (bl ++ [] :: ls))
    (hbl : ∀ l ∈ bl, trimS l = l ∧ l ≠ []) (hne : bl ≠ [])
    (hp : Unrarwrapper.parseEntryLines bl = .ok e) (hn : e.Name = []) :
    Unrarwrapper.parseUnRARListOutput d = Unrarwrapper.listLoop [] ls := by
  unfold Unrarwrapper.parseUnRARListOutput
  rw [hadv]
  exact listLoopU_skip bl ls e hbl hne hp hn

/-- C9 witness: the theorem applied to a concrete listing whose first block
lacks a `Name` key; the following valid block is still returned. -/
theorem claim_C9_witness :
    Unrarwrapper.parseUnRARListOutput
      (("Details: RAR 5\nskip\nType: File\n\nName: ok.txt").toList) =
      Unrarwrapper.listLoop [] [("Name: ok.txt").toList] :=
  claim_C9 (("Details: RAR 5\nskip\nType: File\n\nName: ok.txt").toList)
    [("Type: File").toList] [("Name: ok.txt").toList]
    ({ TypeF := ("File").toList } : Unrarwrapper.Entry)
    (by decide) (by decide) (by decide) (by decide) (by decide)
